import Mathlib

/-!
Verification of the `navis` NEURON interface (`src/navis/interfaces/nrn.py`,
class `NeuronCompartmentModel`) against its natural-language specification.

The skeleton is embedded as a rooted forest on node ids `0, ..., n-1` with
parent pointers that strictly decrease (any finite rooted forest can be
indexed this way).  Edge weights (`plens`, the distance from a node to its
parent) and radii are rationals; the Python code uses floats, the rational
embedding keeps the same formulas exactly.

`TreeNeuron.small_segments` and `graph.segment_length` are navis code that is
not part of the given sources; they are modelled from the spec, see the doc
comments of `smallSegments` and `segLen`.
-/

/-- Python `dict` lookup on an insertion-ordered association list. -/
def dget {α β : Type} [DecidableEq α] (m : List (α × β)) (k : α) : Option β :=
  (m.find? (fun kv => kv.1 = k)).map (fun kv => kv.2)

/-- Python `dict` assignment `m[k] = v`: overwrite in place if the key is
present, else append a new entry. -/
def dset {α β : Type} [DecidableEq α] (m : List (α × β)) (k : α) (v : β) :
    List (α × β) :=
  if m.any (fun kv => kv.1 = k) then
    m.map (fun kv => if kv.1 = k then (k, v) else kv)
  else m ++ [(k, v)]

/-- Python `m.get(k, []) + vs` followed by assignment: append to the list
stored under `k`, starting from `[]` if the key is absent. -/
def dgetL (m : List (Nat × List Nat)) (k : Nat) : List Nat :=
  ((m.find? (fun kv => kv.1 = k)).map (fun kv => kv.2)).getD []

def dappend (m : List (Nat × List Nat)) (k : Nat) (vs : List Nat) :
    List (Nat × List Nat) :=
  dset m k (dgetL m k ++ vs)

/-- Apply a batch of key/value pairs to a map represented as a function,
later pairs overwriting earlier ones (Python `dict.update`). -/
def updMany {α : Type} (f : Nat → Option α) (kvs : List (Nat × α)) :
    Nat → Option α :=
  kvs.foldl (fun g kv => fun x => if x = kv.1 then some kv.2 else g x) f

/-- Running cumulative sums (`numpy.cumsum`), starting from `acc`. -/
def cumsumFrom (acc : ℚ) : List ℚ → List ℚ
  | [] => []
  | x :: xs => (acc + x) :: cumsumFrom (acc + x) xs

def cumsum (l : List ℚ) : List ℚ := cumsumFrom 0 l

/-- Python `int()` applied to a rational: truncation toward zero. -/
def pyInt (q : ℚ) : ℤ := if q < 0 then -⌊-q⌋ else ⌊q⌋

/-- Pair each list element with its index, starting at `k`
(Python `enumerate`). -/
def withIdx {α : Type} : List α → Nat → List (Nat × α)
  | [], _ => []
  | a :: as_, k => (k, a) :: withIdx as_ (k + 1)

/-- Check that every parent pointer strictly decreases: entry `i` (counting
from offset `k`) may only point to an index `< k + i`. -/
def parentsWFb : List (Option Nat) → Nat → Bool
  | [], _ => true
  | o :: rest, k =>
    (match o with
     | none => true
     | some p => decide (p < k)) && parentsWFb rest (k + 1)

/-- A skeleton: node `i` has parent `parents[i]` (none for roots), distance
`plens[i]` to its parent, and radius `radii[i]`.  Parent pointers strictly
decrease, which makes the parent relation well-founded. -/
structure Skeleton where
  parents : List (Option Nat)
  plens : List ℚ
  radii : List ℚ
  wfb : parentsWFb parents 0 = true

namespace Skeleton

def n (sk : Skeleton) : Nat := sk.parents.length

def parent (sk : Skeleton) (i : Nat) : Option Nat :=
  (sk.parents.get? i).getD none

def plen (sk : Skeleton) (i : Nat) : ℚ := (sk.plens.get? i).getD 0

def radius (sk : Skeleton) (i : Nat) : ℚ := (sk.radii.get? i).getD 0

/-- Number of children of node `i`. -/
def childCount (sk : Skeleton) (i : Nat) : Nat :=
  (List.range sk.n).countP (fun c => decide (sk.parent c = some i))

/-- The `TreeNeuron.root` property: the list of root node ids. -/
def rootsOf (sk : Skeleton) : List Nat :=
  (List.range sk.n).filter (fun i => (sk.parent i).isNone)

end Skeleton

theorem parentsWFb_spec (ps : List (Option Nat)) :
    ∀ k, parentsWFb ps k = true →
      ∀ i p, ps.get? i = some (some p) → p < k + i := by
  induction ps with
  | nil => intro k _ i p h; simp [List.get?] at h
  | cons o rest ih =>
    intro k hwf i p h
    cases o with
    | none =>
      have hwf' : (true && parentsWFb rest (k + 1)) = true := hwf
      rw [Bool.and_eq_true] at hwf'
      cases i with
      | zero => simp [List.get?] at h
      | succ j =>
        simp only [List.get?] at h
        have := ih (k + 1) hwf'.2 j p h
        omega
    | some q =>
      have hwf' : (decide (q < k) && parentsWFb rest (k + 1)) = true := hwf
      rw [Bool.and_eq_true] at hwf'
      cases i with
      | zero =>
        simp [List.get?] at h
        subst h
        simpa using hwf'.1
      | succ j =>
        simp only [List.get?] at h
        have := ih (k + 1) hwf'.2 j p h
        omega

theorem Skeleton.parent_lt (sk : Skeleton) {i p : Nat}
    (h : sk.parent i = some p) : p < i := by
  unfold Skeleton.parent at h
  cases hg : sk.parents.get? i with
  | none => rw [hg] at h; simp at h
  | some o =>
    rw [hg] at h
    simp at h
    subst h
    have := parentsWFb_spec sk.parents 0 sk.wfb i p hg
    simpa using this

theorem Skeleton.parent_none_of_ge (sk : Skeleton) {i : Nat}
    (h : sk.n ≤ i) : sk.parent i = none := by
  unfold Skeleton.parent
  rw [List.get?_eq_none.2 h]
  rfl

/-- Fuel-driven walk from a node toward the root: collect the node, then its
ancestors while they have exactly one child, stopping at (and including) the
first ancestor that is a branch point or a root.  With fuel `≥ i` the fuel
never runs out (parent pointers strictly decrease). -/
def segFromF (sk : Skeleton) : Nat → Nat → List Nat
  | 0, i => [i]
  | fuel + 1, i =>
    match sk.parent i with
    | none => [i]
    | some p =>
      if sk.childCount p = 1 then i :: segFromF sk fuel p else [i, p]

/-- The maximal unbranched chain starting (distally) at node `i`, listed
distal to proximal, both boundary nodes included. -/
def segFrom (sk : Skeleton) (i : Nat) : List Nat := segFromF sk i i

/-- A node is the distal start of a small segment iff it is a leaf or a
branch point (not exactly one child) and it has a parent. -/
def isStart (sk : Skeleton) (d : Nat) : Prop :=
  sk.childCount d ≠ 1 ∧ (sk.parent d).isSome

instance (sk : Skeleton) (d : Nat) : Decidable (isStart sk d) := by
  unfold isStart; infer_instance

/-- Modelled from the spec: `TreeNeuron.small_segments` is navis code that is
not part of the given sources.  Per spec section 4.2 step 1, the skeleton is
decomposed into maximal unbranched chains: every node with exactly one child
belongs to the same chain as that child; nodes with zero or two or more
children, and roots, terminate chains.  Each chain is listed distal to
proximal (child to parent, the order the code's reversal at lines 226-227 of
`nrn.py` expects), with the proximal branch point or root included. -/
def smallSegments (sk : Skeleton) : List (List Nat) :=
  ((List.range sk.n).filter (fun d => decide (isStart sk d))).map
    (fun d => segFrom sk d)

-- Basic structural lemmas about `segFromF`.

theorem segFromF_ne_nil (sk : Skeleton) (fuel i : Nat) :
    segFromF sk fuel i ≠ [] := by
  cases fuel with
  | zero => simp [segFromF]
  | succ f =>
    unfold segFromF
    cases sk.parent i with
    | none => simp
    | some p =>
      dsimp only
      split <;> simp

theorem segFromF_head (sk : Skeleton) (fuel i : Nat) :
    (segFromF sk fuel i).head? = some i := by
  cases fuel with
  | zero => simp [segFromF]
  | succ f =>
    unfold segFromF
    cases sk.parent i with
    | none => simp
    | some p =>
      dsimp only
      split <;> simp

/-- The walk is independent of the fuel as long as `i ≤ fuel`. -/
theorem segFromF_stable (sk : Skeleton) :
    ∀ f1 f2 i, i ≤ f1 → i ≤ f2 → segFromF sk f1 i = segFromF sk f2 i := by
  intro f1
  induction f1 with
  | zero =>
    intro f2 i h1 h2
    interval_cases i
    cases f2 with
    | zero => rfl
    | succ g =>
      unfold segFromF
      cases hp : sk.parent 0 with
      | none => rfl
      | some p => exact absurd (sk.parent_lt hp) (by omega)
  | succ f ih =>
    intro f2 i h1 h2
    cases f2 with
    | zero =>
      interval_cases i
      unfold segFromF
      cases hp : sk.parent 0 with
      | none => rfl
      | some p => exact absurd (sk.parent_lt hp) (by omega)
    | succ g =>
      unfold segFromF
      cases hp : sk.parent i with
      | none => rfl
      | some p =>
        have hpi : p < i := sk.parent_lt hp
        dsimp only
        rw [ih g p (by omega) (by omega)]

theorem segFrom_eq_segFromF (sk : Skeleton) {fuel i : Nat} (h : i ≤ fuel) :
    segFromF sk fuel i = segFrom sk i :=
  segFromF_stable sk fuel i i h (Nat.le_refl i)

/-- Every member of the walk is at most the start node. -/
theorem segFromF_mem_le (sk : Skeleton) :
    ∀ fuel i x, i ≤ fuel → x ∈ segFromF sk fuel i → x ≤ i := by
  intro fuel
  induction fuel with
  | zero =>
    intro i x _ hm
    simp [segFromF] at hm
    omega
  | succ f ih =>
    intro i x hi hm
    unfold segFromF at hm
    cases hp : sk.parent i with
    | none => rw [hp] at hm; simp at hm; omega
    | some p =>
      rw [hp] at hm
      have hpi : p < i := sk.parent_lt hp
      dsimp only at hm
      split at hm
      · rcases List.mem_cons.1 hm with h | h
        · omega
        · have := ih p x (by omega) h
          omega
      · simp at hm
        omega

/-- The walk is strictly decreasing, hence has no duplicates. -/
theorem segFromF_pairwise (sk : Skeleton) :
    ∀ fuel i, i ≤ fuel →
      List.Pairwise (fun a b => b < a) (segFromF sk fuel i) := by
  intro fuel
  induction fuel with
  | zero => intro i _; simp [segFromF]
  | succ f ih =>
    intro i hi
    unfold segFromF
    cases hp : sk.parent i with
    | none => simp
    | some p =>
      have hpi : p < i := sk.parent_lt hp
      dsimp only
      split
      · refine List.pairwise_cons.2 ⟨?_, ih p (by omega)⟩
        intro x hx
        have := segFromF_mem_le sk f p x (by omega) hx
        omega
      · simp [hpi]

theorem segFrom_nodup (sk : Skeleton) (i : Nat) : (segFrom sk i).Nodup := by
  have h := segFromF_pairwise sk i i (Nat.le_refl i)
  exact h.imp (fun hlt => Nat.ne_of_gt hlt)

theorem getLast?_cons_of_ne {α : Type} (a : α) {l : List α} (h : l ≠ []) :
    (a :: l).getLast? = l.getLast? := by
  obtain ⟨b, t, rfl⟩ := List.exists_cons_of_ne_nil h
  exact List.getLast?_cons_cons

/-- Unfolding equation for `segFromF` at positive fuel. -/
theorem segFromF_succ (sk : Skeleton) (f i : Nat) :
    segFromF sk (f + 1) i =
      match sk.parent i with
      | none => [i]
      | some p =>
        if sk.childCount p = 1 then i :: segFromF sk f p else [i, p] := rfl

/-- The proximal end of a walk is a stop node: a root or a node with two or
more children (it has a child on the chain, so its child count is nonzero
when it has a child in range; we only record "root or not exactly one"). -/
theorem segFromF_getLast (sk : Skeleton) :
    ∀ fuel i, i ≤ fuel → ∀ x, (segFromF sk fuel i).getLast? = some x →
      sk.parent x = none ∨ sk.childCount x ≠ 1 := by
  intro fuel
  induction fuel with
  | zero =>
    intro i hi x hx
    interval_cases i
    simp [segFromF] at hx
    subst hx
    cases hp : sk.parent 0 with
    | none => exact Or.inl rfl
    | some p => exact absurd (sk.parent_lt hp) (by omega)
  | succ f ih =>
    intro i hi x hx
    unfold segFromF at hx
    cases hp : sk.parent i with
    | none =>
      rw [hp] at hx
      simp at hx
      subst hx
      exact Or.inl hp
    | some p =>
      rw [hp] at hx
      have hpi : p < i := sk.parent_lt hp
      dsimp only at hx
      split at hx
      · rw [getLast?_cons_of_ne i (segFromF_ne_nil sk f p)] at hx
        exact ih p (by omega) x hx
      · simp at hx
        subst hx
        rename_i hcc
        exact Or.inr hcc

/-- An interior node of a walk (neither the distal head nor the proximal
end) has exactly one child. -/
theorem segFromF_interior (sk : Skeleton) :
    ∀ fuel i x, i ≤ fuel → x ∈ segFromF sk fuel i → x ≠ i →
      (segFromF sk fuel i).getLast? ≠ some x → sk.childCount x = 1 := by
  intro fuel
  induction fuel with
  | zero =>
    intro i x _ hm hne _
    simp [segFromF] at hm
    exact absurd hm hne
  | succ f ih =>
    intro i x hi hm hne hlast
    unfold segFromF at hm hlast
    cases hp : sk.parent i with
    | none =>
      rw [hp] at hm
      simp at hm
      exact absurd hm hne
    | some p =>
      rw [hp] at hm hlast
      have hpi : p < i := sk.parent_lt hp
      dsimp only at hm hlast
      split at hm
      · rename_i hcc
        rw [if_pos hcc, getLast?_cons_of_ne i (segFromF_ne_nil sk f p)] at hlast
        rcases List.mem_cons.1 hm with h | h
        · exact absurd h hne
        · by_cases hxp : x = p
          · subst hxp; exact hcc
          · exact ih p x (by omega) h hxp hlast
      · rename_i hcc
        rw [if_neg hcc] at hlast
        simp at hm hlast
        rcases hm with h | h
        · exact absurd h hne
        · exact absurd h.symm hlast

/-- If `c` has parent `k`, then `k` is a member of the walk from `c`. -/
theorem mem_segFrom_parent (sk : Skeleton) {c k : Nat}
    (hp : sk.parent c = some k) : k ∈ segFrom sk c := by
  have hk : k < c := sk.parent_lt hp
  unfold segFrom
  cases hc : c with
  | zero => exact absurd hk (by omega)
  | succ m =>
    unfold segFromF
    rw [← hc, hp]
    dsimp only
    split
    · refine List.mem_cons.2 (Or.inr ?_)
      have hh := segFromF_head sk m k
      exact List.mem_of_mem_head? hh
    · simp

/-- If `c`'s parent `k` has exactly one child, the walk from `c` extends the
walk from `k` by one node. -/
theorem segFrom_step (sk : Skeleton) {c k : Nat} (hp : sk.parent c = some k)
    (hcc : sk.childCount k = 1) : segFrom sk c = c :: segFrom sk k := by
  have hk : k < c := sk.parent_lt hp
  obtain ⟨m, rfl⟩ : ∃ m, c = m + 1 := ⟨c - 1, by omega⟩
  show segFromF sk (m + 1) (m + 1) = (m + 1) :: segFrom sk k
  rw [segFromF_succ, hp]
  dsimp only
  rw [if_pos hcc, segFromF_stable sk m k k (by omega) (Nat.le_refl k)]
  rfl

/-- Climbing lemma: the walk through any node with a parent is contained in
the walk of some distal start node. -/
theorem segFrom_subset_start (sk : Skeleton) :
    ∀ m c, sk.n - c ≤ m → c < sk.n → (sk.parent c).isSome →
      ∃ d, d < sk.n ∧ isStart sk d ∧
        ∀ x ∈ segFrom sk c, x ∈ segFrom sk d := by
  intro m
  induction m with
  | zero => intro c hm hc _; omega
  | succ m ih =>
    intro c hm hc hps
    by_cases hcc : sk.childCount c = 1
    · have hchild : ∃ c' ∈ List.range sk.n, sk.parent c' = some c := by
        have hpos : 0 < (List.range sk.n).countP
            (fun c' => decide (sk.parent c' = some c)) := by
          unfold Skeleton.childCount at hcc
          omega
        rcases List.countP_pos_iff.1 hpos with ⟨c', hmem, hdec⟩
        exact ⟨c', hmem, of_decide_eq_true hdec⟩
      rcases hchild with ⟨c', hc'r, hpc'⟩
      have hc'n : c' < sk.n := List.mem_range.1 hc'r
      have hcltc' : c < c' := sk.parent_lt hpc'
      have hstep : segFrom sk c' = c' :: segFrom sk c := segFrom_step sk hpc' hcc
      rcases ih c' (by omega) hc'n (by rw [hpc']; rfl) with ⟨d, hdn, hds, hsub⟩
      refine ⟨d, hdn, hds, fun x hx => hsub x ?_⟩
      rw [hstep]
      exact List.mem_cons.2 (Or.inr hx)
    · exact ⟨c, hc, ⟨hcc, hps⟩, fun x hx => hx⟩

/-!
The per-segment position computation of `_generate_sections`
(`nrn.py` lines 221-243), mirrored step by step:
distances between consecutive (child, parent) pairs, reversal to
parent-to-child order, a prepended zero, cumulative sum normalized by the
total, and dropping the proximal node unless it is a root.
-/

/-- Line 234: the proximal node (`seg[0]` after reversal) is dropped unless
it is a root. -/
def segDrop (sk : Skeleton) (seg : List Nat) : Bool :=
  match seg.getLast? with
  | some h => !(decide (h ∈ sk.rootsOf))
  | none => false

/-- Normalized positions along the reversed (parent-to-child) segment, one
per node, before the proximal drop (lines 223-231). -/
def segNormAll (sk : Skeleton) (seg : List Nat) : List ℚ :=
  let dist0 : List ℚ := 0 :: (seg.dropLast.map sk.plen).reverse
  (cumsum dist0).map (fun q => q / dist0.sum)

/-- The nodes of a segment that this segment maps (lines 234-236), in
parent-to-child order. -/
def segKept (sk : Skeleton) (seg : List Nat) : List Nat :=
  if segDrop sk seg then seg.reverse.tail else seg.reverse

def segNorm (sk : Skeleton) (seg : List Nat) : List ℚ :=
  if segDrop sk seg then (segNormAll sk seg).tail else segNormAll sk seg

/-- The `zip(seg, norm_pos)` pairing of line 239. -/
def segEntries (sk : Skeleton) (seg : List Nat) : List (Nat × ℚ) :=
  (segKept sk seg).zip (segNorm sk seg)

/-- The `node2pos` dictionary of `_generate_sections` (kept as the
`sec_pos` node column, line 243). -/
def node2pos (sk : Skeleton) : Nat → Option ℚ :=
  (smallSegments sk).foldl (fun f seg => updMany f (segEntries sk seg))
    (fun _ => none)

/-- The `node2sec` dictionary of `_generate_sections` (kept as the
`sec_ix` node column, line 242). -/
def node2sec (sk : Skeleton) : Nat → Option Nat :=
  (withIdx (smallSegments sk) 0).foldl
    (fun f iseg => updMany f ((segKept sk iseg.2).map (fun x => (x, iseg.1))))
    (fun _ => none)

/-- Modelled from the spec: `graph.segment_length` is navis code that is not
part of the given sources.  Per spec section 4.2 step 4, a Section's length
is the sum of the Segment's edge weights. -/
def segLen (sk : Skeleton) (seg : List Nat) : ℚ :=
  (seg.dropLast.map sk.plen).sum

/-- The geometry the code sets on each `neuron.h.Section`
(lines 248-260). -/
structure NrnSection where
  L : ℚ
  diam : ℚ
  nseg : ℤ
deriving DecidableEq

/-- One Section per small segment: length, mean diameter, and
`nseg = 1 + 2 * int(L / (res * 2))` (lines 248-260). -/
def sectionsOf (sk : Skeleton) (res : ℚ) : List NrnSection :=
  (smallSegments sk).map (fun seg =>
    { L := segLen sk seg
      diam := ((seg.map sk.radius).sum / (seg.length : ℚ)) * 2
      nseg := 1 + 2 * pyInt (segLen sk seg / (res * 2)) })

/-- A recorded `child.connect(parent_sec)` call.  NEURON's default connects
the child section's 0 end to position 1 of the parent section; the code at
line 271 passes no explicit position, so `parentPos = 1`, `childPos = 0`. -/
structure Connection where
  child : Nat
  parentSec : Nat
  parentPos : ℚ
  childPos : ℚ
deriving DecidableEq

/-- The connection loop of `_generate_sections` (lines 265-271): every
segment whose proximal node is not a root is connected to the section that
maps that proximal node. -/
def connectionsOf (sk : Skeleton) : List Connection :=
  (withIdx (smallSegments sk) 0).filterMap (fun iseg =>
    match iseg.2.getLast? with
    | none => none
    | some p =>
      if p ∈ sk.rootsOf then none
      else (node2sec sk p).map (fun ps =>
        { child := iseg.1, parentSec := ps, parentPos := 1, childPos := 0 }))

/-- A 3-node unbranched chain: root `0`, middle `1`, leaf `2`, unit edge
weights and unit radii (spec section 8, scenario 1). -/
def lineSkel : Skeleton :=
  { parents := [none, some 0, some 1]
    plens := [1, 1, 1]
    radii := [1, 1, 1]
    wfb := by decide }

/-- A Y-shaped skeleton: root `0`, branch node `1`, leaves `2` and `3`
(spec section 8, scenario 2). -/
def ySkel : Skeleton :=
  { parents := [none, some 0, some 1, some 1]
    plens := [1, 1, 1, 1]
    radii := [1, 1, 1, 1]
    wfb := by decide }

example : smallSegments lineSkel = [[2, 1, 0]] := by decide
example : node2pos lineSkel 1 = some (1 / 2) := by with_unfolding_all decide
example : node2pos lineSkel 2 = some 1 := by with_unfolding_all decide
example : sectionsOf lineSkel 1 = [{ L := 2, diam := 2, nseg := 3 }] := by
  with_unfolding_all decide
example : connectionsOf lineSkel = [] := by decide
example : smallSegments ySkel = [[1, 0], [2, 1], [3, 1]] := by decide
example : node2pos ySkel 1 = some 1 := by with_unfolding_all decide
example : connectionsOf ySkel =
    [{ child := 1, parentSec := 0, parentPos := 1, childPos := 0 },
     { child := 2, parentSec := 0, parentPos := 1, childPos := 0 }] := by
  with_unfolding_all decide

/-!
`_validate_skeleton` (lines 273-288): two non-fatal warnings (units, multiple
roots) followed by two fatal checks (missing radius column, non-positive
radius).
-/

/-- What `_validate_skeleton` reads from the skeleton. -/
structure ValidationInput where
  unitsTruthy : Bool
  unitsDimensionless : Bool
  unitsIsUm : Bool
  numRoots : Nat
  hasRadiusColumn : Bool
  radii : List ℚ

/-- Returns the warnings logged and, if validation fails, the fatal error.
Warnings are emitted before the radius checks, exactly as in the code. -/
def validateSkeleton (v : ValidationInput) : List String × Option String :=
  let w1 : List String :=
    if v.unitsTruthy && !v.unitsDimensionless && !v.unitsIsUm then
      ["Model expects coordinates in microns"]
    else []
  let w2 : List String :=
    if 1 < v.numRoots then ["Neuron has multiple roots"] else []
  let w := w1 ++ w2
  if !v.hasRadiusColumn then
    (w, some "Neuron node table must have radius column")
  else if v.radii.any (fun r => decide (r ≤ 0)) then
    (w, some "Neuron node table contains radii <= 0.")
  else (w, none)

/-!
The instrumentation registries of `NeuronCompartmentModel`.  External NEURON
objects (vectors, point processes, spike generators, connectors) are opaque;
they are modelled by the order in which they are allocated: each call to a
NEURON constructor yields a fresh numeric object id (`nextId`).
-/

/-- Key of the `records` dict: either a caller label or a node id. -/
inductive RecKey where
  | lbl (s : String)
  | nid (k : Nat)
deriving DecidableEq

/-- A value that may or may not be a Python `str`
(for the `isinstance(what, str)` check of `_add_record`). -/
inductive PyStrArg where
  | str (s : String)
  | nonStr
deriving DecidableEq

inductive PyErr where
  | typeError
  | keyError
deriving DecidableEq

/-- The mutable state of a `NeuronCompartmentModel` relevant to the claims:
the node-location map produced by `_generate_sections`, the three
registries, the created NetStims, the source of each created NetCon, the
mechanisms inserted per section, and the allocation counter. -/
structure ModelState where
  numSections : Nat
  node2secM : Nat → Option Nat
  node2posM : Nat → Option ℚ
  records : List (RecKey × Nat)
  stimuli : List (Nat × List Nat)
  synapses : List (Nat × List Nat)
  netstims : List Nat
  netconSrc : List (Nat × Nat)
  mechs : Nat → List String
  nextId : Nat

/-- State right after `__init__`: sections generated, all registries
empty. -/
def buildModel (sk : Skeleton) : ModelState :=
  { numSections := (smallSegments sk).length
    node2secM := node2sec sk
    node2posM := node2pos sk
    records := []
    stimuli := []
    synapses := []
    netstims := []
    netconSrc := []
    mechs := fun _ => []
    nextId := 0 }

/-- Lookup `nodes.loc[where]`: pandas raises a `KeyError` before yielding any row
if any requested node id is absent from the node table (whose `sec_ix`
column is the location map). -/
def locOk (st : ModelState) (wh : List Nat) : Bool :=
  wh.all (fun x => (st.node2secM x).isSome)

/-- Loop body of `_add_record` (lines 482-489): allocate a recorder, store
it under the label if one was given, else under the node id. -/
def recBody (label : Option String) (s : ModelState) (x : Nat) : ModelState :=
  match label with
  | some l => { s with records := dset s.records (RecKey.lbl l) s.nextId
                       nextId := s.nextId + 1 }
  | none => { s with records := dset s.records (RecKey.nid x) s.nextId
                     nextId := s.nextId + 1 }

/-- Method `_add_record` (lines 459-489).  The `what` type check precedes the node
lookup; the lookup (`nodes.loc[where]`) precedes the loop.  The returned
state is the model after the call; on an error the state is exactly the
input state (the exception aborts the call before any registry write). -/
def addRecord (st : ModelState) (wh : List Nat) (what : PyStrArg)
    (label : Option String) : ModelState × Option PyErr :=
  match what with
  | PyStrArg.nonStr => (st, some PyErr.typeError)
  | PyStrArg.str _ =>
    if locOk st wh then (wh.foldl (recBody label) st, none)
    else (st, some PyErr.keyError)

/-- Method `add_voltage_record` (line 431). -/
def addVoltageRecord (st : ModelState) (wh : List Nat)
    (label : Option String) : ModelState × Option PyErr :=
  addRecord st wh (PyStrArg.str "v") label

/-- Method `add_current_record` (line 445). -/
def addCurrentRecord (st : ModelState) (wh : List Nat)
    (label : Option String) : ModelState × Option PyErr :=
  addRecord st wh (PyStrArg.str "i") label

/-- Loop body of `_add_stimulus` (lines 422-429): allocate one point
process per node and append it to the node's stimulus list. -/
def stimBody (s : ModelState) (x : Nat) : ModelState :=
  { s with stimuli := dappend s.stimuli x [s.nextId]
           nextId := s.nextId + 1 }

/-- Method `_add_stimulus` (lines 414-429); `inject_current_pulse` and
`add_synaptic_current` both delegate to it.  The stimulus parameters do not
affect the registries and are not modelled. -/
def addStimulus (st : ModelState) (wh : List Nat) :
    ModelState × Option PyErr :=
  if locOk st wh then (wh.foldl stimBody st, none)
  else (st, some PyErr.keyError)

/-- Loop body of `add_synaptic_input` (lines 353-372): one Exp2Syn appended
to the node's synapse list, one NetCon (whose source is the shared NetStim
`g`) appended together with `g` to the node's stimulus list. -/
def synBody (g : Nat) (s : ModelState) (x : Nat) : ModelState :=
  let syn := s.nextId
  let s1 := { s with synapses := dappend s.synapses x [syn]
                     nextId := syn + 1 }
  let nc := s1.nextId
  { s1 with netconSrc := s1.netconSrc ++ [(nc, g)]
            stimuli := dappend s1.stimuli x [nc, g]
            nextId := nc + 1 }

/-- The state right after the NetStim allocation at line 345 of
`add_synaptic_input` (before any registry write). -/
def synPre (st : ModelState) : ModelState :=
  { st with netstims := st.netstims ++ [st.nextId], nextId := st.nextId + 1 }

/-- Method `add_synaptic_input` (lines 290-372): a single NetStim is created
before the loop (line 345), then per target one synapse and one connector
referencing that NetStim. -/
def addSynapticInput (st : ModelState) (wh : List Nat) :
    ModelState × Option PyErr :=
  if locOk (synPre st) wh then
    (wh.foldl (synBody st.nextId) (synPre st), none)
  else (synPre st, some PyErr.keyError)

/-- Python truthiness of the `subset` argument of `insert`/`uninsert`
(lines 531, 555): `None` and the empty list are both falsy. -/
def pyFalsySubset : Option (List Nat) → Bool
  | none => true
  | some l => l.isEmpty

/-- Method `insert` (lines 517-541): apply a mechanism to all sections if `subset`
is falsy, else to the given indices. -/
def insertMech (st : ModelState) (mech : String)
    (subset : Option (List Nat)) : ModelState :=
  let targets :=
    if pyFalsySubset subset then List.range st.numSections
    else subset.getD []
  { st with mechs := fun i =>
      if i ∈ targets then
        if mech ∈ st.mechs i then st.mechs i
        else st.mechs i ++ [mech]
      else st.mechs i }

/-- Method `uninsert` (lines 543-562): remove a mechanism (`hasattr` guarded, so a
no-op on sections that never had it) from all sections if `subset` is
falsy, else from the given indices. -/
def uninsertMech (st : ModelState) (mech : String)
    (subset : Option (List Nat)) : ModelState :=
  let targets :=
    if pyFalsySubset subset then List.range st.numSections
    else subset.getD []
  { st with mechs := fun i =>
      if i ∈ targets then (st.mechs i).filter (fun m => m ≠ mech)
      else st.mechs i }

/-- Method `clear_records` (line 491). -/
def clearRecords (st : ModelState) : ModelState := { st with records := [] }

/-- Method `clear_stimuli` (line 495). -/
def clearStimuli (st : ModelState) : ModelState := { st with stimuli := [] }

/-- Method `clear_synapses` (line 499). -/
def clearSynapses (st : ModelState) : ModelState := { st with synapses := [] }

/-- Method `clear` (lines 503-515): clears the three registries and drops the
section handles. -/
def clearModel (st : ModelState) : ModelState :=
  let st1 := clearSynapses (clearStimuli (clearRecords st))
  { st1 with numSections := 0 }

-- Lemmas about the Python-dict embedding.

theorem dget_dset_same {α β : Type} [DecidableEq α] (m : List (α × β))
    (k : α) (v : β) : dget (dset m k v) k = some v := by
  unfold dset
  split
  · rename_i hany
    induction m with
    | nil => simp at hany
    | cons kv t ih =>
      by_cases h : kv.1 = k
      · simp [dget, List.find?, h]
      · have hany' : t.any (fun kv => kv.1 = k) = true := by
          simp [List.any_cons, h] at hany
          simpa using hany
        simpa [dget, List.find?, h] using ih hany'
  · induction m with
    | nil => simp [dget, List.find?]
    | cons kv t ih =>
      rename_i hany
      have h : ¬(kv.1 = k) := by
        intro hh
        exact hany (by simp [List.any_cons, hh])
      have hany' : ¬(t.any (fun kv => kv.1 = k) = true) := by
        intro hh
        exact hany (by simp [List.any_cons, hh])
      simpa [dget, List.find?, h] using ih hany'

theorem dget_cons {α β : Type} [DecidableEq α] (a : α) (b : β)
    (t : List (α × β)) (k : α) :
    dget ((a, b) :: t) k = if a = k then some b else dget t k := by
  by_cases h : a = k
  · simp [dget, List.find?_cons, h]
  · simp [dget, List.find?_cons, h]

theorem dget_dset_other {α β : Type} [DecidableEq α] (m : List (α × β))
    (k k' : α) (v : β) (hne : k' ≠ k) :
    dget (dset m k v) k' = dget m k' := by
  have hkk' : ¬((k : α) = k') := fun hh => hne hh.symm
  unfold dset
  split
  · rename_i hany
    clear hany
    induction m with
    | nil => rfl
    | cons kv t ih =>
      obtain ⟨a, b⟩ := kv
      simp only [List.map_cons]
      by_cases h : (a, b).1 = k
      · simp only at h
        subst h
        rw [show (if (a, b).1 = a then (a, v) else (a, b)) = (a, v) from
          if_pos rfl]
        rw [dget_cons, dget_cons, if_neg hkk', if_neg hkk']
        exact ih
      · rw [if_neg h]
        rw [dget_cons, dget_cons]
        by_cases h2 : a = k'
        · rw [if_pos h2, if_pos h2]
        · rw [if_neg h2, if_neg h2]
          exact ih
  · rename_i hany
    clear hany
    induction m with
    | nil =>
      show dget ((k, v) :: []) k' = dget [] k'
      rw [dget_cons, if_neg hkk']
    | cons kv t ih =>
      obtain ⟨a, b⟩ := kv
      show dget ((a, b) :: (t ++ [(k, v)])) k' = dget ((a, b) :: t) k'
      rw [dget_cons, dget_cons]
      by_cases h2 : a = k'
      · rw [if_pos h2, if_pos h2]
      · rw [if_neg h2, if_neg h2]
        exact ih

theorem dset_vals_sub {α β : Type} [DecidableEq α] (m : List (α × β))
    (k : α) (v : β) (x : β) (hx : x ∈ (dset m k v).map (fun kv => kv.2)) :
    x = v ∨ x ∈ m.map (fun kv => kv.2) := by
  unfold dset at hx
  split at hx
  · rcases List.mem_map.1 hx with ⟨kv', hkv', hval⟩
    rcases List.mem_map.1 hkv' with ⟨kv, hkv, hmap⟩
    by_cases h : kv.1 = k
    · rw [if_pos h] at hmap
      subst hmap
      exact Or.inl hval.symm
    · rw [if_neg h] at hmap
      subst hmap
      exact Or.inr (List.mem_map.2 ⟨kv, hkv, hval⟩)
  · rw [List.map_append] at hx
    rcases List.mem_append.1 hx with h | h
    · exact Or.inr h
    · simp at h
      exact Or.inl h

theorem dgetL_eq_dget (m : List (Nat × List Nat)) (k : Nat) :
    dgetL m k = (dget m k).getD [] := rfl

theorem dgetL_dappend_same (m : List (Nat × List Nat)) (k : Nat)
    (vs : List Nat) : dgetL (dappend m k vs) k = dgetL m k ++ vs := by
  rw [dgetL_eq_dget, dappend, dget_dset_same]
  rfl

theorem dgetL_dappend_other (m : List (Nat × List Nat)) (k k' : Nat)
    (vs : List Nat) (hne : k' ≠ k) :
    dgetL (dappend m k vs) k' = dgetL m k' := by
  rw [dgetL_eq_dget, dappend, dget_dset_other m k k' _ hne, dgetL_eq_dget]

-- Helper facts about nonnegative edge weights.

theorem plen_nonneg (sk : Skeleton) (hp : ∀ x ∈ sk.plens, (0 : ℚ) ≤ x)
    (i : Nat) : 0 ≤ sk.plen i := by
  unfold Skeleton.plen
  cases hg : sk.plens.get? i with
  | none => simp
  | some q =>
    have : q ∈ sk.plens := List.get?_mem hg
    simpa using hp q this

theorem segLen_nonneg (sk : Skeleton) (hp : ∀ x ∈ sk.plens, (0 : ℚ) ≤ x)
    (seg : List Nat) : 0 ≤ segLen sk seg := by
  unfold segLen
  refine List.sum_nonneg ?_
  intro q hq
  rcases List.mem_map.1 hq with ⟨i, _, rfl⟩
  exact plen_nonneg sk hp i

/-- C3.  For every Section built with resolution `res`, its subdivision
count equals `nseg = 1 + 2 * floor(length / (2 * res))`; consequently `nseg`
is odd and at least 1, for every skeleton with nonnegative edge weights and
every positive resolution. -/
theorem c3_nseg_formula (sk : Skeleton) (res : ℚ) (hres : 0 < res)
    (hp : ∀ x ∈ sk.plens, (0 : ℚ) ≤ x) :
    ∀ s ∈ sectionsOf sk res,
      s.nseg = 1 + 2 * ⌊s.L / (2 * res)⌋ ∧ Odd s.nseg ∧ 1 ≤ s.nseg := by
  intro s hs
  rcases List.mem_map.1 hs with ⟨seg, _, rfl⟩
  dsimp only
  have hL : 0 ≤ segLen sk seg := segLen_nonneg sk hp seg
  have hq : 0 ≤ segLen sk seg / (res * 2) := by positivity
  have hpyInt : pyInt (segLen sk seg / (res * 2)) =
      ⌊segLen sk seg / (res * 2)⌋ := by
    unfold pyInt
    rw [if_neg (not_lt.2 hq)]
  have hfloor : (0 : ℤ) ≤ ⌊segLen sk seg / (res * 2)⌋ := Int.floor_nonneg.2 hq
  refine ⟨?_, ?_, ?_⟩
  · rw [hpyInt, mul_comm res 2]
  · exact ⟨pyInt (segLen sk seg / (res * 2)), by ring⟩
  · rw [hpyInt]; omega

/-- C3 witness: the 3-node chain at resolution 1 (scenario 1 of the spec:
length 2, hence nseg = 3). -/
theorem c3_witness :
    (0 : ℚ) < 1 ∧ (∀ x ∈ lineSkel.plens, (0 : ℚ) ≤ x) ∧
    ∀ s ∈ sectionsOf lineSkel 1,
      s.nseg = 1 + 2 * ⌊s.L / (2 * 1)⌋ ∧ Odd s.nseg ∧ 1 ≤ s.nseg :=
  ⟨by with_unfolding_all decide, by with_unfolding_all decide,
   c3_nseg_formula lineSkel 1 (by with_unfolding_all decide)
     (by with_unfolding_all decide)⟩

/-- C6.  Model construction fails fatally iff some node lacks a defined
positive radius (missing radius column or a non-positive radius); multiple
roots or a unit system other than microns only produce a warning. -/
theorem c6_validation (v : ValidationInput) :
    ((validateSkeleton v).2.isSome ↔
      (v.hasRadiusColumn = false ∨ ∃ r ∈ v.radii, r ≤ 0))
    ∧ (1 < v.numRoots →
        "Neuron has multiple roots" ∈ (validateSkeleton v).1)
    ∧ (v.unitsTruthy = true → v.unitsDimensionless = false →
        v.unitsIsUm = false →
        "Model expects coordinates in microns" ∈ (validateSkeleton v).1) := by
  refine ⟨?_, ?_, ?_⟩
  · by_cases hc : v.hasRadiusColumn <;>
      by_cases ha : ∃ r ∈ v.radii, r ≤ 0 <;>
      simp [validateSkeleton, hc, ha]
  · intro hroots
    by_cases hc : v.hasRadiusColumn <;>
      by_cases ha : ∃ r ∈ v.radii, r ≤ 0 <;>
      simp [validateSkeleton, hc, ha, hroots]
  · intro h1 h2 h3
    by_cases hc : v.hasRadiusColumn <;>
      by_cases ha : ∃ r ∈ v.radii, r ≤ 0 <;>
      simp [validateSkeleton, hc, ha, h1, h2, h3]

/-- C6 witness: a skeleton input with two roots, wrong units and a zero
radius fails validation and logs both warnings. -/
theorem c6_witness :
    (validateSkeleton
      { unitsTruthy := true, unitsDimensionless := false, unitsIsUm := false
        numRoots := 2, hasRadiusColumn := true,
        radii := [1, 0] }).2.isSome = true
    ∧ "Neuron has multiple roots" ∈ (validateSkeleton
      { unitsTruthy := true, unitsDimensionless := false, unitsIsUm := false
        numRoots := 2, hasRadiusColumn := true, radii := [1, 0] }).1
    ∧ "Model expects coordinates in microns" ∈ (validateSkeleton
      { unitsTruthy := true, unitsDimensionless := false, unitsIsUm := false
        numRoots := 2, hasRadiusColumn := true, radii := [1, 0] }).1 := by
  have h := c6_validation
    { unitsTruthy := true, unitsDimensionless := false, unitsIsUm := false
      numRoots := 2, hasRadiusColumn := true, radii := [1, 0] }
  refine ⟨?_, h.2.1 (by decide), h.2.2 rfl rfl rfl⟩
  rw [h.1]
  exact Or.inr ⟨0, by with_unfolding_all decide, le_refl 0⟩

/-- C9.  In `insert` and `uninsert`, any falsy `subset` — `None` or the
empty list — selects every Section: with `subset = []` the mechanism is
applied to (or removed from) all Sections, exactly as with `subset = None`. -/
theorem c9_falsy_subset (st : ModelState) (mech : String) :
    (insertMech st mech (some [])).mechs = (insertMech st mech none).mechs
    ∧ (uninsertMech st mech (some [])).mechs
        = (uninsertMech st mech none).mechs
    ∧ ∀ i, i < st.numSections →
        mech ∈ (insertMech st mech (some [])).mechs i
        ∧ mech ∉ (uninsertMech st mech (some [])).mechs i := by
  refine ⟨rfl, rfl, ?_⟩
  intro i hi
  constructor
  · show mech ∈ (if i ∈ (if pyFalsySubset (some []) then
        List.range st.numSections else (some []).getD []) then
        (if mech ∈ st.mechs i then st.mechs i else st.mechs i ++ [mech])
      else st.mechs i)
    rw [if_pos (by simpa [pyFalsySubset] using List.mem_range.2 hi)]
    by_cases hm : mech ∈ st.mechs i
    · rw [if_pos hm]; exact hm
    · rw [if_neg hm]; exact List.mem_append.2 (Or.inr (by simp))
  · show mech ∉ (if i ∈ (if pyFalsySubset (some []) then
        List.range st.numSections else (some []).getD []) then
        (st.mechs i).filter (fun m => m ≠ mech)
      else st.mechs i)
    rw [if_pos (by simpa [pyFalsySubset] using List.mem_range.2 hi)]
    intro hmem
    have := (List.mem_filter.1 hmem).2
    simp at this

/-- C9 witness: on the Y-skeleton model, `insert("pas", subset=[])` reaches
section 0 and `uninsert("pas", subset=[])` removes it there. -/
theorem c9_witness :
    (insertMech (buildModel ySkel) "pas" (some [])).mechs
      = (insertMech (buildModel ySkel) "pas" none).mechs
    ∧ "pas" ∈ (insertMech (buildModel ySkel) "pas" (some [])).mechs 0
    ∧ "pas" ∉ (uninsertMech (buildModel ySkel) "pas" (some [])).mechs 0 := by
  have h := c9_falsy_subset (buildModel ySkel) "pas"
  have h0 := h.2.2 0 (by with_unfolding_all decide)
  exact ⟨h.1, h0.1, h0.2⟩

theorem locOk_eq_false (st : ModelState) (wh : List Nat)
    (h : ∃ x ∈ wh, (st.node2secM x).isNone) : locOk st wh = false := by
  rcases h with ⟨x, hx, hbad⟩
  by_contra hne
  rw [Bool.not_eq_false] at hne
  have h1 := List.all_eq_true.1 hne x hx
  rw [Option.isNone_iff_eq_none] at hbad
  rw [hbad] at h1
  simp at h1

/-- C8.  If any node id in the batch is absent from the location map, or
the state-variable argument of a record call is not a string, the call
reports an error and none of the three registries is mutated — even when
other ids in the batch are valid. -/
theorem c8_error_atomicity (st : ModelState) (wh : List Nat)
    (what : PyStrArg) (label : Option String) :
    ((∃ x ∈ wh, (st.node2secM x).isNone) →
      (addRecord st wh what label).2.isSome = true
      ∧ (addRecord st wh what label).1.records = st.records
      ∧ (addRecord st wh what label).1.stimuli = st.stimuli
      ∧ (addRecord st wh what label).1.synapses = st.synapses
      ∧ addStimulus st wh = (st, some PyErr.keyError)
      ∧ (addSynapticInput st wh).2 = some PyErr.keyError
      ∧ (addSynapticInput st wh).1.records = st.records
      ∧ (addSynapticInput st wh).1.stimuli = st.stimuli
      ∧ (addSynapticInput st wh).1.synapses = st.synapses)
    ∧ (what = PyStrArg.nonStr →
      addRecord st wh what label = (st, some PyErr.typeError)) := by
  constructor
  · intro hbad
    have hloc : locOk st wh = false := locOk_eq_false st wh hbad
    have hrec : (addRecord st wh what label).1 = st
        ∧ (addRecord st wh what label).2.isSome = true := by
      cases what with
      | nonStr => exact ⟨rfl, rfl⟩
      | str s =>
        unfold addRecord
        rw [hloc]
        exact ⟨rfl, rfl⟩
    have hstim : addStimulus st wh = (st, some PyErr.keyError) := by
      unfold addStimulus
      rw [hloc]
      rfl
    have hloc1 : locOk (synPre st) wh = false := hloc
    have hsyn : addSynapticInput st wh = (synPre st, some PyErr.keyError) := by
      unfold addSynapticInput
      rw [hloc1]
      rfl
    refine ⟨hrec.2, ?_, ?_, ?_, hstim, ?_, ?_, ?_, ?_⟩
    · rw [hrec.1]
    · rw [hrec.1]
    · rw [hrec.1]
    · rw [hsyn]
    · rw [hsyn]; rfl
    · rw [hsyn]; rfl
    · rw [hsyn]; rfl
  · intro hwhat
    subst hwhat
    rfl

/-- C8 witness: node id 99 is absent from the Y-skeleton model, so a
record call with a valid id 2 in the same batch (and a stimulus call)
errors without touching the registries. -/
theorem c8_witness :
    (∃ x ∈ [2, 99], ((buildModel ySkel).node2secM x).isNone)
    ∧ (addRecord (buildModel ySkel) [2, 99] (PyStrArg.str "v")
        none).2.isSome = true
    ∧ (addRecord (buildModel ySkel) [2, 99] (PyStrArg.str "v")
        none).1.records = (buildModel ySkel).records
    ∧ addStimulus (buildModel ySkel) [2, 99]
        = (buildModel ySkel, some PyErr.keyError)
    ∧ addRecord (buildModel ySkel) [2, 99] PyStrArg.nonStr none
        = (buildModel ySkel, some PyErr.typeError) := by
  have hbad : ∃ x ∈ [2, 99], ((buildModel ySkel).node2secM x).isNone := by
    refine ⟨99, by simp, ?_⟩
    with_unfolding_all decide
  have h := c8_error_atomicity (buildModel ySkel) [2, 99]
    (PyStrArg.str "v") none
  have h2 := c8_error_atomicity (buildModel ySkel) [2, 99]
    PyStrArg.nonStr none
  exact ⟨hbad, (h.1 hbad).1, (h.1 hbad).2.1, (h.1 hbad).2.2.2.2.1,
    h2.2 rfl⟩

-- Fold lemmas for `add_synaptic_input`.

theorem synBody_fold_netstims (g : Nat) :
    ∀ (l : List Nat) (s : ModelState),
      (l.foldl (synBody g) s).netstims = s.netstims := by
  intro l
  induction l with
  | nil => intro s; rfl
  | cons a t ih =>
    intro s
    rw [List.foldl_cons, ih]
    rfl

theorem synBody_fold_netconSrc (g : Nat) :
    ∀ (l : List Nat) (s : ModelState),
      ∀ cs ∈ (l.foldl (synBody g) s).netconSrc,
        cs ∈ s.netconSrc ∨ cs.2 = g := by
  intro l
  induction l with
  | nil => intro s cs h; exact Or.inl h
  | cons a t ih =>
    intro s cs h
    rw [List.foldl_cons] at h
    rcases ih (synBody g s a) cs h with h1 | h1
    · rcases List.mem_append.1 h1 with h2 | h2
      · exact Or.inl h2
      · simp at h2
        subst h2
        exact Or.inr rfl
    · exact Or.inr h1

theorem synBody_fold_synapses (g : Nat) :
    ∀ (l : List Nat) (s : ModelState) (x : Nat),
      ∃ t, dgetL (l.foldl (synBody g) s).synapses x
        = dgetL s.synapses x ++ t := by
  intro l
  induction l with
  | nil => intro s x; exact ⟨[], by simp⟩
  | cons a t ih =>
    intro s x
    rw [List.foldl_cons]
    rcases ih (synBody g s a) x with ⟨t2, ht2⟩
    by_cases hx : x = a
    · subst hx
      refine ⟨[s.nextId] ++ t2, ?_⟩
      rw [ht2]
      show dgetL (dappend s.synapses x [s.nextId]) x ++ t2 = _
      rw [dgetL_dappend_same, List.append_assoc]
    · refine ⟨t2, ?_⟩
      rw [ht2]
      show dgetL (dappend s.synapses a [s.nextId]) x ++ t2 = _
      rw [dgetL_dappend_other _ _ _ _ hx]

theorem synBody_fold_stimuli (g : Nat) :
    ∀ (l : List Nat) (s : ModelState) (x : Nat),
      ∃ t, dgetL (l.foldl (synBody g) s).stimuli x
        = dgetL s.stimuli x ++ t := by
  intro l
  induction l with
  | nil => intro s x; exact ⟨[], by simp⟩
  | cons a t ih =>
    intro s x
    rw [List.foldl_cons]
    rcases ih (synBody g s a) x with ⟨t2, ht2⟩
    by_cases hx : x = a
    · subst hx
      refine ⟨[s.nextId + 1, g] ++ t2, ?_⟩
      rw [ht2]
      show dgetL (dappend s.stimuli x [s.nextId + 1, g]) x ++ t2 = _
      rw [dgetL_dappend_same, List.append_assoc]
    · refine ⟨t2, ?_⟩
      rw [ht2]
      show dgetL (dappend s.stimuli a [s.nextId + 1, g]) x ++ t2 = _
      rw [dgetL_dappend_other _ _ _ _ hx]

/-- C7.  `add_synaptic_input` creates exactly one NetStim per call; every
NetCon created by the call references that NetStim; and the per-node
synapse and stimulus lists are only appended to, never replaced. -/
theorem c7_synaptic_input (st : ModelState) (wh : List Nat)
    (st' : ModelState) (h : addSynapticInput st wh = (st', none)) :
    st'.netstims = st.netstims ++ [st.nextId]
    ∧ (∀ cs ∈ st'.netconSrc, cs ∉ st.netconSrc → cs.2 = st.nextId)
    ∧ (∀ x, ∃ t, dgetL st'.synapses x = dgetL st.synapses x ++ t)
    ∧ (∀ x, ∃ t, dgetL st'.stimuli x = dgetL st.stimuli x ++ t) := by
  unfold addSynapticInput at h
  by_cases hloc : locOk (synPre st) wh = true
  · rw [if_pos hloc] at h
    have hst' : st' = wh.foldl (synBody st.nextId) (synPre st) := by
      have := congrArg Prod.fst h
      exact this.symm
    subst hst'
    refine ⟨?_, ?_, ?_, ?_⟩
    · rw [synBody_fold_netstims]
      rfl
    · intro cs hcs hnotin
      rcases synBody_fold_netconSrc st.nextId wh _ cs hcs with h1 | h1
      · exact absurd h1 hnotin
      · exact h1
    · intro x
      exact synBody_fold_synapses st.nextId wh _ x
    · intro x
      exact synBody_fold_stimuli st.nextId wh _ x
  · rw [if_neg hloc] at h
    have := congrArg Prod.snd h
    simp at this

/-- C7 witness: synaptic input on the two leaves of the Y-skeleton. -/
theorem c7_witness :
    (addSynapticInput (buildModel ySkel) [2, 3]).1.netstims
      = (buildModel ySkel).netstims ++ [(buildModel ySkel).nextId]
    ∧ ∀ x, ∃ t,
        dgetL (addSynapticInput (buildModel ySkel) [2, 3]).1.synapses x
          = dgetL (buildModel ySkel).synapses x ++ t := by
  have h2 : (addSynapticInput (buildModel ySkel) [2, 3]).2 = none := by
    with_unfolding_all decide
  have hpair : addSynapticInput (buildModel ySkel) [2, 3]
      = ((addSynapticInput (buildModel ySkel) [2, 3]).1, none) := by
    rw [← h2]
  have h := c7_synaptic_input (buildModel ySkel) [2, 3] _ hpair
  exact ⟨h.1, h.2.2.1⟩

theorem map_id_of_no_key {α β : Type} [DecidableEq α] (m : List (α × β))
    (k : α) (w : β) (hall : ∀ kv ∈ m, ¬(kv.1 = k)) :
    (m.map fun kv => if kv.1 = k then (k, w) else kv) = m := by
  induction m with
  | nil => rfl
  | cons kv t ih =>
    rw [List.map_cons, if_neg (hall kv (by simp)),
      ih (fun kv2 h2 => hall kv2 (by simp [h2]))]

theorem dset_dset {α β : Type} [DecidableEq α] (m : List (α × β)) (k : α)
    (v w : β) : dset (dset m k v) k w = dset m k w := by
  unfold dset
  by_cases hany : (m.any fun kv => kv.1 = k) = true
  · rw [if_pos hany]
    have hany2 : ((m.map fun kv => if kv.1 = k then (k, v) else kv).any
        fun kv => kv.1 = k) = true := by
      rcases List.any_eq_true.1 hany with ⟨kv, hkv, hdec⟩
      refine List.any_eq_true.2 ⟨(k, v), List.mem_map.2 ⟨kv, hkv, ?_⟩, by simp⟩
      rw [if_pos (of_decide_eq_true hdec)]
    rw [if_pos hany2, if_pos hany, List.map_map]
    congr 1
    funext kv
    by_cases h : kv.1 = k <;> simp [h]
  · rw [if_neg hany]
    have hall : ∀ kv ∈ m, ¬(kv.1 = k) := by
      intro kv hkv hk
      exact hany (List.any_eq_true.2 ⟨kv, hkv, decide_eq_true hk⟩)
    have hany2 : ((m ++ [(k, v)]).any fun kv => kv.1 = k) = true :=
      List.any_eq_true.2 ⟨(k, v), List.mem_append.2 (Or.inr (by simp)),
        by simp⟩
    rw [if_pos hany2, if_neg hany, List.map_append]
    rw [map_id_of_no_key m k w hall]
    simp

-- Fold lemmas for `_add_record`.

theorem recBody_label_records (l : String) (s : ModelState) (a : Nat) :
    (recBody (some l) s a).records
      = dset s.records (RecKey.lbl l) s.nextId := rfl

theorem recBody_none_records (s : ModelState) (a : Nat) :
    (recBody none s a).records
      = dset s.records (RecKey.nid a) s.nextId := rfl

theorem recBody_nextId (label : Option String) (s : ModelState) (a : Nat) :
    (recBody label s a).nextId = s.nextId + 1 := by
  cases label <;> rfl

theorem recBody_fold_label (l : String) :
    ∀ (wh : List Nat) (s : ModelState), wh ≠ [] →
      (wh.foldl (recBody (some l)) s).records
        = dset s.records (RecKey.lbl l) (s.nextId + (wh.length - 1)) := by
  intro wh
  induction wh with
  | nil => intro s h; exact absurd rfl h
  | cons a t ih =>
    intro s _
    rw [List.foldl_cons]
    cases t with
    | nil =>
      show (recBody (some l) s a).records = _
      rw [recBody_label_records]
      simp
    | cons b t2 =>
      rw [ih (recBody (some l) s a) (by simp), recBody_label_records,
        dset_dset, recBody_nextId]
      congr 1
      simp
      omega

theorem recBody_fold_none_off :
    ∀ (wh : List Nat) (s : ModelState) (k : RecKey),
      (∀ x ∈ wh, k ≠ RecKey.nid x) →
      dget (wh.foldl (recBody none) s).records k = dget s.records k := by
  intro wh
  induction wh with
  | nil => intro s k _; rfl
  | cons a t ih =>
    intro s k hk
    rw [List.foldl_cons, ih (recBody none s a) k
      (fun x hx => hk x (by simp [hx])), recBody_none_records,
      dget_dset_other _ _ _ _ (hk a (by simp))]

theorem recBody_fold_none_get :
    ∀ (wh : List Nat) (s : ModelState), wh.Nodup →
      ∀ j x, wh.get? j = some x →
        dget (wh.foldl (recBody none) s).records (RecKey.nid x)
          = some (s.nextId + j) := by
  intro wh
  induction wh with
  | nil => intro s _ j x hj; simp [List.get?] at hj
  | cons a t ih =>
    intro s hnd j x hj
    cases j with
    | zero =>
      have hax : a = x := by simpa [List.get?] using hj
      subst hax
      have hoff : ∀ y ∈ t, RecKey.nid a ≠ RecKey.nid y := by
        intro y hy heq
        have hay : a = y := by injection heq
        subst hay
        exact (List.nodup_cons.1 hnd).1 hy
      rw [List.foldl_cons, recBody_fold_none_off t _ _ hoff,
        recBody_none_records, dget_dset_same]
      simp
    | succ j' =>
      simp only [List.get?] at hj
      rw [List.foldl_cons,
        ih (recBody none s a) (List.nodup_cons.1 hnd).2 j' x hj,
        recBody_nextId]
      congr 1
      omega

/-- From a successful `_add_record` call, the final state is the loop fold
over the input state. -/
theorem addRecord_ok (st : ModelState) (wh : List Nat) (what : PyStrArg)
    (lab : Option String) (st' : ModelState)
    (h : addRecord st wh what lab = (st', none)) :
    st' = wh.foldl (recBody lab) st := by
  cases what with
  | nonStr =>
    have h2 := congrArg Prod.snd h
    simp [addRecord] at h2
  | str s =>
    unfold addRecord at h
    by_cases hloc : locOk st wh = true
    · rw [if_pos hloc] at h
      exact (congrArg Prod.fst h).symm
    · rw [if_neg hloc] at h
      exact absurd (congrArg Prod.snd h) (by simp)

/-- C1 counterexample.  Two voltage recorders added in separate calls at
node 2 (no label) on the 3-node chain: the registry afterwards holds only
the second recorder (object id 1) under node 2; the first recorder (object
id 0) is stored nowhere — node-id keyed recorders replace, they do not
accumulate in a list. -/
theorem c1_counterexample :
    ((addVoltageRecord
        ((addVoltageRecord (buildModel lineSkel) [2] none).1)
        [2] none).1).records = [(RecKey.nid 2, 1)]
    ∧ (0 : Nat) ∉ (((addVoltageRecord
        ((addVoltageRecord (buildModel lineSkel) [2] none).1)
        [2] none).1).records.map (fun kv => kv.2)) := by
  with_unfolding_all decide

/-- C1 as amended.  With a label, the recorder is stored under that label,
overwriting any prior recorder at that label; without a label, the recorder
is stored under the node id, likewise overwriting any prior recorder at
that node id (replace semantics, not append). -/
theorem c1_amended_record_semantics (st : ModelState) (wh : List Nat)
    (what : PyStrArg) (st' : ModelState) :
    (∀ l, addRecord st wh what (some l) = (st', none) → wh ≠ [] →
      dget st'.records (RecKey.lbl l) = some (st.nextId + (wh.length - 1))
      ∧ ∀ k, k ≠ RecKey.lbl l → dget st'.records k = dget st.records k)
    ∧ (addRecord st wh what none = (st', none) → wh.Nodup →
      (∀ j x, wh.get? j = some x →
        dget st'.records (RecKey.nid x) = some (st.nextId + j))
      ∧ ∀ k, (∀ x ∈ wh, k ≠ RecKey.nid x) →
        dget st'.records k = dget st.records k) := by
  constructor
  · intro l h hne
    have hst' := addRecord_ok st wh what (some l) st' h
    subst hst'
    rw [recBody_fold_label l wh st hne]
    exact ⟨dget_dset_same _ _ _, fun k hk => dget_dset_other _ _ _ _ hk⟩
  · intro h hnd
    have hst' := addRecord_ok st wh what none st' h
    subst hst'
    exact ⟨fun j x hj => recBody_fold_none_get wh st hnd j x hj,
      fun k hk => recBody_fold_none_off wh st k hk⟩

/-- C1 witness: a labelled batch call and an unlabelled two-node call on
the Y-skeleton model. -/
theorem c1_witness :
    (addRecord (buildModel ySkel) [2, 3] (PyStrArg.str "v")
        (some "soma")).2 = none
    ∧ dget (addRecord (buildModel ySkel) [2, 3] (PyStrArg.str "v")
        (some "soma")).1.records (RecKey.lbl "soma") = some 1
    ∧ (addRecord (buildModel ySkel) [2, 3] (PyStrArg.str "v") none).2 = none
    ∧ dget (addRecord (buildModel ySkel) [2, 3] (PyStrArg.str "v")
        none).1.records (RecKey.nid 3) = some 1 := by
  have hsnd : (addRecord (buildModel ySkel) [2, 3] (PyStrArg.str "v")
      (some "soma")).2 = none := by
    with_unfolding_all decide
  have hpair : addRecord (buildModel ySkel) [2, 3] (PyStrArg.str "v")
      (some "soma")
      = ((addRecord (buildModel ySkel) [2, 3] (PyStrArg.str "v")
          (some "soma")).1, none) := by
    rw [← hsnd]
  have hsnd2 : (addRecord (buildModel ySkel) [2, 3] (PyStrArg.str "v")
      none).2 = none := by
    with_unfolding_all decide
  have hpair2 : addRecord (buildModel ySkel) [2, 3] (PyStrArg.str "v") none
      = ((addRecord (buildModel ySkel) [2, 3] (PyStrArg.str "v")
          none).1, none) := by
    rw [← hsnd2]
  have h1 := ((c1_amended_record_semantics (buildModel ySkel) [2, 3]
    (PyStrArg.str "v")
    ((addRecord (buildModel ySkel) [2, 3] (PyStrArg.str "v")
      (some "soma")).1)).1 "soma" hpair (by simp)).1
  have h2 := (c1_amended_record_semantics (buildModel ySkel) [2, 3]
    (PyStrArg.str "v")
    ((addRecord (buildModel ySkel) [2, 3] (PyStrArg.str "v")
      none).1)).2 hpair2 (by simp)
  refine ⟨hsnd, ?_, hsnd2, ?_⟩
  · rw [h1]
    rfl
  · rw [h2.1 1 3 rfl]
    rfl

/-- C10.  A record call with a label and several node ids leaves only the
recorder of the last node retrievable under the label; the recorders
created for the earlier nodes of the batch are stored nowhere in the
records registry. -/
theorem c10_label_last_only (st : ModelState) (wh : List Nat)
    (what : PyStrArg) (l : String) (st' : ModelState)
    (h : addRecord st wh what (some l) = (st', none)) (hne : wh ≠ [])
    (hvals : ∀ v ∈ st.records.map (fun kv => kv.2), v < st.nextId) :
    dget st'.records (RecKey.lbl l) = some (st.nextId + (wh.length - 1))
    ∧ ∀ j, j < wh.length - 1 →
        (st.nextId + j) ∉ st'.records.map (fun kv => kv.2) := by
  have hst' := addRecord_ok st wh what (some l) st' h
  subst hst'
  rw [recBody_fold_label l wh st hne]
  refine ⟨dget_dset_same _ _ _, ?_⟩
  intro j hj hmem
  rcases dset_vals_sub _ _ _ _ hmem with h1 | h1
  · have : j = wh.length - 1 := by omega
    omega
  · have := hvals _ h1
    omega

/-- C10 witness: a labelled record call over nodes 2 and 3 of the
Y-skeleton model leaves only recorder 1 (for node 3) under the label;
recorder 0 (for node 2) is stored nowhere. -/
theorem c10_witness :
    dget (addRecord (buildModel ySkel) [2, 3] (PyStrArg.str "v")
        (some "syn")).1.records (RecKey.lbl "syn")
      = some ((buildModel ySkel).nextId + 1)
    ∧ ∀ j, j < 1 → ((buildModel ySkel).nextId + j) ∉
        ((addRecord (buildModel ySkel) [2, 3] (PyStrArg.str "v")
          (some "syn")).1.records.map (fun kv => kv.2)) := by
  have hsnd : (addRecord (buildModel ySkel) [2, 3] (PyStrArg.str "v")
      (some "syn")).2 = none := by
    with_unfolding_all decide
  have hpair : addRecord (buildModel ySkel) [2, 3] (PyStrArg.str "v")
      (some "syn")
      = ((addRecord (buildModel ySkel) [2, 3] (PyStrArg.str "v")
          (some "syn")).1, none) := by
    rw [← hsnd]
  have h := c10_label_last_only (buildModel ySkel) [2, 3]
    (PyStrArg.str "v") "syn" _ hpair (by simp) (by simp [buildModel])
  exact h

-- Generic lemmas about batched function-map updates and their folds.

theorem updMany_not_mem {α : Type} :
    ∀ (kvs : List (Nat × α)) (f : Nat → Option α) (x : Nat),
      x ∉ kvs.map Prod.fst → updMany f kvs x = f x := by
  intro kvs
  induction kvs with
  | nil => intro f x _; rfl
  | cons kv t ih =>
    intro f x hx
    rw [List.map_cons, List.mem_cons] at hx
    push_neg at hx
    show updMany (fun y => if y = kv.1 then some kv.2 else f y) t x = f x
    rw [ih _ x hx.2]
    exact if_neg hx.1

theorem updMany_isSome {α : Type} :
    ∀ (kvs : List (Nat × α)) (f : Nat → Option α) (x : Nat),
      (updMany f kvs x).isSome = true ↔
        (f x).isSome = true ∨ x ∈ kvs.map Prod.fst := by
  intro kvs
  induction kvs with
  | nil => intro f x; simp [updMany]
  | cons kv t ih =>
    intro f x
    show (updMany (fun y => if y = kv.1 then some kv.2 else f y) t x).isSome
        = true ↔ _
    rw [ih]
    by_cases hx : x = kv.1
    · simp [hx]
    · simp [hx]

theorem updMany_val {α : Type} :
    ∀ (kvs : List (Nat × α)) (f : Nat → Option α) (x : Nat) (v : α),
      updMany f kvs x = some v → f x = some v ∨ (x, v) ∈ kvs := by
  intro kvs
  induction kvs with
  | nil => intro f x v h; exact Or.inl h
  | cons kv t ih =>
    intro f x v h
    rcases ih _ x v h with h1 | h1
    · have h2 : (if x = kv.1 then some kv.2 else f x) = some v := h1
      by_cases hx : x = kv.1
      · rw [if_pos hx] at h2
        refine Or.inr (List.mem_cons.2 (Or.inl ?_))
        obtain ⟨a, b⟩ := kv
        simp at hx h2 ⊢
        exact ⟨hx, h2.symm⟩
      · rw [if_neg hx] at h2
        exact Or.inl h2
    · exact Or.inr (List.mem_cons.2 (Or.inr h1))

theorem updMany_unique {α : Type} :
    ∀ (kvs : List (Nat × α)) (f : Nat → Option α) (x : Nat) (v : α),
      (kvs.map Prod.fst).Nodup → (x, v) ∈ kvs →
      updMany f kvs x = some v := by
  intro kvs
  induction kvs with
  | nil => intro f x v _ h; simp at h
  | cons kv t ih =>
    intro f x v hnd hmem
    rw [List.map_cons, List.nodup_cons] at hnd
    rcases List.mem_cons.1 hmem with h1 | h1
    · subst h1
      show updMany (fun y => if y = x then some v else f y) t x = some v
      dsimp only at hnd
      rw [updMany_not_mem t _ x hnd.1, if_pos rfl]
    · exact ih _ x v hnd.2 h1

theorem foldUpd_not_mem {α : Type} :
    ∀ (ess : List (List (Nat × α))) (f0 : Nat → Option α) (x : Nat),
      (∀ es ∈ ess, x ∉ es.map Prod.fst) →
      ess.foldl updMany f0 x = f0 x := by
  intro ess
  induction ess with
  | nil => intro f0 x _; rfl
  | cons es t ih =>
    intro f0 x hx
    rw [List.foldl_cons, ih _ x (fun es2 h2 => hx es2 (by simp [h2])),
      updMany_not_mem es f0 x (hx es (by simp))]

theorem foldUpd_isSome {α : Type} :
    ∀ (ess : List (List (Nat × α))) (f0 : Nat → Option α) (x : Nat),
      (ess.foldl updMany f0 x).isSome = true ↔
        (f0 x).isSome = true ∨ ∃ es ∈ ess, x ∈ es.map Prod.fst := by
  intro ess
  induction ess with
  | nil => intro f0 x; simp
  | cons es t ih =>
    intro f0 x
    rw [List.foldl_cons, ih, updMany_isSome]
    constructor
    · rintro ((h | h) | h)
      · exact Or.inl h
      · exact Or.inr ⟨es, by simp, h⟩
      · rcases h with ⟨es2, h2, h3⟩
        exact Or.inr ⟨es2, by simp [h2], h3⟩
    · rintro (h | ⟨es2, h2, h3⟩)
      · exact Or.inl (Or.inl h)
      · rcases List.mem_cons.1 h2 with h4 | h4
        · subst h4
          exact Or.inl (Or.inr h3)
        · exact Or.inr ⟨es2, h4, h3⟩

theorem foldUpd_val {α : Type} :
    ∀ (ess : List (List (Nat × α))) (f0 : Nat → Option α) (x : Nat) (v : α),
      ess.foldl updMany f0 x = some v →
      f0 x = some v ∨ ∃ es ∈ ess, (x, v) ∈ es := by
  intro ess
  induction ess with
  | nil => intro f0 x v h; exact Or.inl h
  | cons es t ih =>
    intro f0 x v h
    rw [List.foldl_cons] at h
    rcases ih _ x v h with h1 | h1
    · rcases updMany_val es f0 x v h1 with h2 | h2
      · exact Or.inl h2
      · exact Or.inr ⟨es, by simp, h2⟩
    · rcases h1 with ⟨es2, h2, h3⟩
      exact Or.inr ⟨es2, by simp [h2], h3⟩

theorem foldUpd_last {α : Type} (l1 : List (List (Nat × α)))
    (es : List (Nat × α)) (l2 : List (List (Nat × α)))
    (f0 : Nat → Option α) (x : Nat) (v : α)
    (hmem : (x, v) ∈ es) (hnd : (es.map Prod.fst).Nodup)
    (hl2 : ∀ es2 ∈ l2, x ∉ es2.map Prod.fst) :
    (l1 ++ es :: l2).foldl updMany f0 x = some v := by
  rw [List.foldl_append, List.foldl_cons, foldUpd_not_mem l2 _ x hl2]
  exact updMany_unique es _ x v hnd hmem

-- Cumulative-sum lemmas.

theorem length_cumsumFrom (acc : ℚ) :
    ∀ l : List ℚ, (cumsumFrom acc l).length = l.length := by
  intro l
  induction l generalizing acc with
  | nil => rfl
  | cons x t ih => simp [cumsumFrom, ih]

theorem cumsumFrom_ne_nil (acc : ℚ) (l : List ℚ) (h : l ≠ []) :
    cumsumFrom acc l ≠ [] := by
  intro hc
  have := length_cumsumFrom acc l
  rw [hc] at this
  simp at this
  exact h (List.eq_nil_of_length_eq_zero this.symm)

theorem cumsumFrom_getLast? (acc : ℚ) :
    ∀ l : List ℚ, l ≠ [] →
      (cumsumFrom acc l).getLast? = some (acc + l.sum) := by
  intro l
  induction l generalizing acc with
  | nil => intro h; exact absurd rfl h
  | cons x t ih =>
    intro _
    cases t with
    | nil => simp [cumsumFrom]
    | cons y t2 =>
      show ((acc + x) :: cumsumFrom (acc + x) (y :: t2)).getLast? = _
      rw [getLast?_cons_of_ne (acc + x)
        (cumsumFrom_ne_nil (acc + x) (y :: t2) (by simp)),
        ih (acc + x) (by simp)]
      congr 1
      simp [List.sum_cons]
      ring

theorem cumsumFrom_bounds (l : List ℚ) :
    ∀ (acc : ℚ) (c : ℚ), c ∈ cumsumFrom acc l → 0 ≤ acc →
      (∀ x ∈ l, 0 ≤ x) → acc ≤ c ∧ c ≤ acc + l.sum := by
  induction l with
  | nil => intro acc c hc _ _; simp [cumsumFrom] at hc
  | cons x t ih =>
    intro acc c hc hacc hl
    have hx : 0 ≤ x := hl x (by simp)
    have hts : 0 ≤ t.sum :=
      List.sum_nonneg (fun y hy => hl y (by simp [hy]))
    rcases List.mem_cons.1 hc with h1 | h1
    · subst h1
      constructor
      · linarith
      · rw [List.sum_cons]
        linarith
    · have := ih (acc + x) c h1 (by linarith) (fun y hy => hl y (by simp [hy]))
      rw [List.sum_cons]
      constructor <;> linarith

-- `withIdx` lemmas.

theorem withIdx_mem_iff {α : Type} :
    ∀ (l : List α) (k i : Nat) (a : α),
      (i, a) ∈ withIdx l k ↔ ∃ j, l.get? j = some a ∧ i = k + j := by
  intro l
  induction l with
  | nil => intro k i a; simp [withIdx, List.get?]
  | cons x t ih =>
    intro k i a
    show (i, a) ∈ (k, x) :: withIdx t (k + 1) ↔ _
    rw [List.mem_cons, ih (k + 1) i a]
    constructor
    · rintro (h | ⟨j, hj, rfl⟩)
      · refine ⟨0, ?_, ?_⟩
        · rw [show a = x from congrArg Prod.snd h]
          rfl
        · have hik : i = k := congrArg Prod.fst h
          omega
      · exact ⟨j + 1, hj, by omega⟩
    · rintro ⟨j, hj, rfl⟩
      cases j with
      | zero =>
        refine Or.inl ?_
        simp [List.get?] at hj
        rw [hj]
        simp
      | succ j2 =>
        refine Or.inr ⟨j2, ?_, by omega⟩
        simpa [List.get?] using hj

theorem withIdx_cons {α : Type} (a : α) (l : List α) (k : Nat) :
    withIdx (a :: l) k = (k, a) :: withIdx l (k + 1) := rfl

theorem withIdx_append {α : Type} :
    ∀ (l1 l2 : List α) (k : Nat),
      withIdx (l1 ++ l2) k = withIdx l1 k ++ withIdx l2 (k + l1.length) := by
  intro l1
  induction l1 with
  | nil => intro l2 k; simp [withIdx]
  | cons x t ih =>
    intro l2 k
    show (k, x) :: withIdx (t ++ l2) (k + 1)
        = ((k, x) :: withIdx t (k + 1)) ++ withIdx l2 (k + (x :: t).length)
    rw [List.cons_append, ih l2 (k + 1)]
    have he : k + 1 + t.length = k + (x :: t).length := by
      simp only [List.length_cons]
      omega
    rw [he]

-- Rewriting the two node maps as plain folds of entry lists.

theorem node2pos_eq (sk : Skeleton) :
    node2pos sk = ((smallSegments sk).map (segEntries sk)).foldl updMany
      (fun _ => none) := by
  unfold node2pos
  rw [List.foldl_map]

theorem node2sec_eq (sk : Skeleton) :
    node2sec sk = ((withIdx (smallSegments sk) 0).map
      (fun iseg => (segKept sk iseg.2).map (fun x => (x, iseg.1)))).foldl
      updMany (fun _ => none) := by
  unfold node2sec
  rw [List.foldl_map]

theorem keys_pairs {l : List Nat} {i : Nat} :
    ((l.map (fun x => (x, i))).map Prod.fst) = l := by
  induction l with
  | nil => rfl
  | cons x t ih => simp only [List.map_cons, ih]

-- Structure of the per-segment kept nodes and positions.

theorem length_segNormAll (sk : Skeleton) (seg : List Nat) (h : seg ≠ []) :
    (segNormAll sk seg).length = seg.length := by
  unfold segNormAll
  rw [List.length_map]
  show (cumsumFrom 0 _).length = _
  rw [length_cumsumFrom]
  simp only [List.length_cons, List.length_reverse, List.length_map,
    List.length_dropLast]
  have := List.length_pos.2 h
  omega

theorem length_segNorm_eq (sk : Skeleton) (seg : List Nat) (h : seg ≠ []) :
    (segKept sk seg).length = (segNorm sk seg).length := by
  unfold segKept segNorm
  cases hd : segDrop sk seg
  · simp [length_segNormAll sk seg h]
  · simp [length_segNormAll sk seg h]

theorem segEntries_keys (sk : Skeleton) (seg : List Nat) (h : seg ≠ []) :
    (segEntries sk seg).map Prod.fst = segKept sk seg := by
  unfold segEntries
  exact List.map_fst_zip _ _ (le_of_eq (length_segNorm_eq sk seg h))

theorem segKept_subset (sk : Skeleton) (seg : List Nat) :
    ∀ x ∈ segKept sk seg, x ∈ seg := by
  intro x hx
  unfold segKept at hx
  split at hx
  · exact List.mem_reverse.1 (List.mem_of_mem_tail hx)
  · exact List.mem_reverse.1 hx

theorem segKept_nodup (sk : Skeleton) (seg : List Nat) (h : seg.Nodup) :
    (segKept sk seg).Nodup := by
  unfold segKept
  split
  · exact List.Nodup.sublist (List.tail_sublist _) (List.nodup_reverse.2 h)
  · exact List.nodup_reverse.2 h

theorem mem_segKept_of (sk : Skeleton) (seg : List Nat)
    (x : Nat) (hx : x ∈ seg)
    (hcond : ∀ p, seg.getLast? = some p → x ≠ p ∨ p ∈ sk.rootsOf) :
    x ∈ segKept sk seg := by
  have hne : seg ≠ [] := List.ne_nil_of_mem hx
  obtain ⟨p, hp⟩ : ∃ p, seg.getLast? = some p := by
    cases hgl : seg.getLast? with
    | none => exact absurd (List.getLast?_eq_none_iff.1 hgl) hne
    | some q => exact ⟨q, rfl⟩
  unfold segKept segDrop
  rw [hp]
  by_cases hroot : p ∈ sk.rootsOf
  · simp only [hroot, decide_True, Bool.not_true, Bool.false_eq_true,
      if_false]
    exact List.mem_reverse.2 hx
  · simp only [hroot, decide_False, Bool.not_false, if_true]
    rcases hcond p hp with hxp | hxp
    · have hrev : seg.reverse.head? = some p := by
        rw [List.head?_reverse, hp]
      obtain ⟨rest, hrest⟩ : ∃ rest, seg.reverse = p :: rest := by
        cases hr : seg.reverse with
        | nil => rw [hr] at hrev; simp at hrev
        | cons a rest =>
          rw [hr] at hrev
          simp at hrev
          subst hrev
          exact ⟨rest, rfl⟩
      rw [hrest]
      have hxrev : x ∈ seg.reverse := List.mem_reverse.2 hx
      rw [hrest] at hxrev
      rcases List.mem_cons.1 hxrev with h1 | h1
      · exact absurd h1 hxp
      · exact h1
    · exact absurd hxp hroot

theorem segFrom_ne_nil (sk : Skeleton) (i : Nat) : segFrom sk i ≠ [] :=
  segFromF_ne_nil sk i i

theorem smallSegments_shape (sk : Skeleton) (seg : List Nat)
    (hseg : seg ∈ smallSegments sk) :
    ∃ d, d < sk.n ∧ isStart sk d ∧ seg = segFrom sk d := by
  rcases List.mem_map.1 hseg with ⟨d, hd, rfl⟩
  rcases List.mem_filter.1 hd with ⟨hdr, hds⟩
  exact ⟨d, List.mem_range.1 hdr, of_decide_eq_true hds, rfl⟩

theorem segFrom_mem_smallSegments (sk : Skeleton) (d : Nat) (hd : d < sk.n)
    (hs : isStart sk d) : segFrom sk d ∈ smallSegments sk :=
  List.mem_map.2 ⟨d, List.mem_filter.2 ⟨List.mem_range.2 hd,
    decide_eq_true hs⟩, rfl⟩

theorem segFrom_shape_of_isStart (sk : Skeleton) (d : Nat)
    (hs : isStart sk d) :
    ∃ rest, segFrom sk d = d :: rest ∧ rest ≠ [] := by
  obtain ⟨p, hp⟩ := Option.isSome_iff_exists.1 hs.2
  have hpd : p < d := sk.parent_lt hp
  obtain ⟨m, rfl⟩ : ∃ m, d = m + 1 := ⟨d - 1, by omega⟩
  show ∃ rest, segFromF sk (m + 1) (m + 1) = (m + 1) :: rest ∧ rest ≠ []
  rw [segFromF_succ, hp]
  dsimp only
  split
  · exact ⟨segFromF sk m p, rfl, segFromF_ne_nil sk m p⟩
  · exact ⟨[p], rfl, by simp⟩

theorem segFrom_mem_lt (sk : Skeleton) (d : Nat) (hd : d < sk.n) :
    ∀ x ∈ segFrom sk d, x < sk.n := by
  intro x hx
  have := segFromF_mem_le sk d d x (Nat.le_refl d) hx
  omega

theorem segFrom_getLast_ne_head (sk : Skeleton) (d : Nat)
    (hs : isStart sk d) (q : Nat) (hq : (segFrom sk d).getLast? = some q) :
    q ≠ d := by
  obtain ⟨rest, hrest, hrne⟩ := segFrom_shape_of_isStart sk d hs
  rw [hrest, getLast?_cons_of_ne d hrne] at hq
  have hqmem : q ∈ rest := List.mem_of_getLast?_eq_some hq
  have hpw := segFromF_pairwise sk d d (Nat.le_refl d)
  rw [show segFromF sk d d = segFrom sk d from rfl, hrest] at hpw
  have := (List.pairwise_cons.1 hpw).1 q hqmem
  omega

/-- The isSome-characterization of the section map: a node has an entry iff
some small segment keeps it. -/
theorem node2sec_isSome_iff (sk : Skeleton) (k : Nat) :
    (node2sec sk k).isSome = true ↔
      ∃ seg ∈ smallSegments sk, k ∈ segKept sk seg := by
  rw [node2sec_eq, foldUpd_isSome]
  simp only [Option.isSome_none, Bool.false_eq_true, false_or]
  constructor
  · rintro ⟨es, hes, hk⟩
    rcases List.mem_map.1 hes with ⟨iseg, hiseg, rfl⟩
    rw [keys_pairs] at hk
    obtain ⟨i, seg⟩ := iseg
    rcases (withIdx_mem_iff _ 0 i seg).1 hiseg with ⟨j, hj, _⟩
    exact ⟨seg, List.mem_iff_get?.2 ⟨j, hj⟩, hk⟩
  · rintro ⟨seg, hseg, hk⟩
    rcases List.mem_iff_get?.1 hseg with ⟨j, hj⟩
    refine ⟨(segKept sk seg).map (fun x => (x, j)), ?_, ?_⟩
    · exact List.mem_map.2 ⟨(j, seg),
        (withIdx_mem_iff _ 0 j seg).2 ⟨j, hj, by omega⟩, rfl⟩
    · rw [keys_pairs]
      exact hk

theorem node2pos_isSome_iff (sk : Skeleton) (k : Nat) :
    (node2pos sk k).isSome = true ↔
      ∃ seg ∈ smallSegments sk, k ∈ segKept sk seg := by
  rw [node2pos_eq, foldUpd_isSome]
  simp only [Option.isSome_none, Bool.false_eq_true, false_or]
  constructor
  · rintro ⟨es, hes, hk⟩
    rcases List.mem_map.1 hes with ⟨seg, hseg, rfl⟩
    obtain ⟨d, hd, hds, rfl⟩ := smallSegments_shape sk seg hseg
    rw [segEntries_keys sk (segFrom sk d) (segFrom_ne_nil sk d)] at hk
    exact ⟨segFrom sk d, hseg, hk⟩
  · rintro ⟨seg, hseg, hk⟩
    refine ⟨segEntries sk seg, List.mem_map.2 ⟨seg, hseg, rfl⟩, ?_⟩
    obtain ⟨d, hd, hds, rfl⟩ := smallSegments_shape sk seg hseg
    rw [segEntries_keys sk (segFrom sk d) (segFrom_ne_nil sk d)]
    exact hk

/-- Every node below `sk.n` is kept by some small segment (provided no root
is an isolated node), and conversely kept nodes are below `sk.n`. -/
theorem kept_iff (sk : Skeleton)
    (hiso : ∀ k, k < sk.n → sk.parent k = none → 0 < sk.childCount k)
    (k : Nat) :
    (∃ seg ∈ smallSegments sk, k ∈ segKept sk seg) ↔ k < sk.n := by
  constructor
  · rintro ⟨seg, hseg, hk⟩
    obtain ⟨d, hd, _, rfl⟩ := smallSegments_shape sk seg hseg
    exact segFrom_mem_lt sk d hd k (segKept_subset sk _ k hk)
  · intro hk
    by_cases hs : isStart sk k
    · refine ⟨segFrom sk k, segFrom_mem_smallSegments sk k hk hs, ?_⟩
      refine mem_segKept_of sk _ k
        (List.mem_of_mem_head? (segFromF_head sk k k)) ?_
      intro p hp
      exact Or.inl (fun hkp =>
        (segFrom_getLast_ne_head sk k hs p hp) (hkp ▸ rfl))
    · -- k has a child: either it has exactly one child, or it is a root
      -- (isolated roots excluded by `hiso`).
      have hchild : ∃ c, c < sk.n ∧ sk.parent c = some k := by
        unfold isStart at hs
        push_neg at hs
        by_cases hcc : sk.childCount k = 1
        · have hpos : 0 < (List.range sk.n).countP
              (fun c => decide (sk.parent c = some k)) := by
            unfold Skeleton.childCount at hcc
            omega
          rcases List.countP_pos_iff.1 hpos with ⟨c, hc, hdec⟩
          exact ⟨c, List.mem_range.1 hc, of_decide_eq_true hdec⟩
        · have hroot : sk.parent k = none := by
            have := hs hcc
            cases hpk : sk.parent k with
            | none => rfl
            | some p => rw [hpk] at this; simp at this
          have hpos := hiso k hk hroot
          unfold Skeleton.childCount at hpos
          rcases List.countP_pos_iff.1 hpos with ⟨c, hc, hdec⟩
          exact ⟨c, List.mem_range.1 hc, of_decide_eq_true hdec⟩
      rcases hchild with ⟨c, hc, hpc⟩
      have hkc : k ∈ segFrom sk c := mem_segFrom_parent sk hpc
      obtain ⟨d, hdn, hds, hsub⟩ := segFrom_subset_start sk sk.n c
        (by omega) hc (by rw [hpc]; rfl)
      refine ⟨segFrom sk d, segFrom_mem_smallSegments sk d hdn hds, ?_⟩
      refine mem_segKept_of sk _ k (hsub k hkc) ?_
      intro p hp
      by_cases hkroot : k ∈ sk.rootsOf
      · by_cases hkp : k = p
        · exact Or.inr (hkp ▸ hkroot)
        · exact Or.inl hkp
      · -- k is not a root, so (being no start) it has exactly one child,
        -- while the proximal end p is a stop node: k ≠ p.
        have hparent : (sk.parent k).isSome := by
          cases hpk : sk.parent k with
          | none =>
            exact absurd (List.mem_filter.2 ⟨List.mem_range.2 hk,
              by rw [hpk]; rfl⟩) hkroot
          | some q => rfl
        have hcc : sk.childCount k = 1 := by
          unfold isStart at hs
          push_neg at hs
          by_contra hcc
          exact absurd hparent (by simpa using hs hcc)
        have hstop := segFromF_getLast sk d d (Nat.le_refl d) p hp
        refine Or.inl ?_
        intro hkp
        subst hkp
        rcases hstop with h1 | h1
        · rw [Option.isSome_iff_exists] at hparent
          rcases hparent with ⟨q, hq⟩
          rw [h1] at hq
          simp at hq
        · exact h1 hcc

/-- C4.  For every skeleton (whose roots all have at least one child), the
node-to-location maps assign exactly one entry to every skeleton node: the
key set of both `node2sec` and `node2pos` is exactly the node-id set. -/
theorem c4_location_coverage (sk : Skeleton)
    (hiso : ∀ k, k < sk.n → sk.parent k = none → 0 < sk.childCount k) :
    (∀ k, (node2sec sk k).isSome = true ↔ k < sk.n)
    ∧ (∀ k, (node2pos sk k).isSome = true ↔ k < sk.n) := by
  constructor
  · intro k
    rw [node2sec_isSome_iff, kept_iff sk hiso k]
  · intro k
    rw [node2pos_isSome_iff, kept_iff sk hiso k]

/-- C4 witness: on the Y-skeleton every node id 0-3 is mapped and id 4 is
not. -/
theorem c4_witness :
    (∀ k, k < ySkel.n → ySkel.parent k = none → 0 < ySkel.childCount k)
    ∧ ((node2sec ySkel 3).isSome = true ↔ 3 < ySkel.n)
    ∧ ((node2pos ySkel 4).isSome = true ↔ 4 < ySkel.n) := by
  have hiso : ∀ k, k < ySkel.n → ySkel.parent k = none →
      0 < ySkel.childCount k := by decide
  have h := c4_location_coverage ySkel hiso
  exact ⟨hiso, h.1 3, h.2 4⟩

theorem plen_pos_of_lt (sk : Skeleton)
    (hlen : sk.plens.length = sk.parents.length)
    (hpos : ∀ x ∈ sk.plens, (0 : ℚ) < x) (i : Nat) (hi : i < sk.n) :
    0 < sk.plen i := by
  unfold Skeleton.plen
  have hilt : i < sk.plens.length := by
    rw [hlen]
    exact hi
  cases hg : sk.plens.get? i with
  | none =>
    rw [List.get?_eq_none] at hg
    omega
  | some q =>
    have : q ∈ sk.plens := List.get?_mem hg
    simpa using hpos q this

theorem seg_total_pos (sk : Skeleton)
    (hlen : sk.plens.length = sk.parents.length)
    (hpos : ∀ x ∈ sk.plens, (0 : ℚ) < x) (seg : List Nat)
    (hseg : seg ∈ smallSegments sk) :
    0 < (seg.dropLast.map sk.plen).sum := by
  obtain ⟨d, hd, hds, rfl⟩ := smallSegments_shape sk seg hseg
  obtain ⟨rest, hrest, hrne⟩ := segFrom_shape_of_isStart sk d hds
  refine List.sum_pos _ ?_ ?_
  · intro q hq
    rcases List.mem_map.1 hq with ⟨i, hi, rfl⟩
    have himem : i ∈ segFrom sk d :=
      (List.dropLast_sublist (segFrom sk d)).subset hi
    exact plen_pos_of_lt sk hlen hpos i (segFrom_mem_lt sk d hd i himem)
  · rw [hrest]
    intro hnil
    rw [List.map_eq_nil_iff] at hnil
    have hlen2 := congrArg List.length hnil
    simp [List.length_dropLast] at hlen2
    exact hrne hlen2

theorem segEntries_val_bounds (sk : Skeleton)
    (hlen : sk.plens.length = sk.parents.length)
    (hpos : ∀ x ∈ sk.plens, (0 : ℚ) < x) (seg : List Nat)
    (hseg : seg ∈ smallSegments sk) :
    ∀ kv ∈ segEntries sk seg, 0 ≤ kv.2 ∧ kv.2 ≤ 1 := by
  intro kv hkv
  obtain ⟨x, q⟩ := kv
  have hq : q ∈ segNorm sk seg := (List.of_mem_zip hkv).2
  have hq2 : q ∈ segNormAll sk seg := by
    unfold segNorm at hq
    split at hq
    · exact List.mem_of_mem_tail hq
    · exact hq
  unfold segNormAll at hq2
  rcases List.mem_map.1 hq2 with ⟨c, hc, rfl⟩
  have htot0 : ((0 : ℚ) :: (seg.dropLast.map sk.plen).reverse).sum
      = (seg.dropLast.map sk.plen).sum := by
    rw [List.sum_cons, List.sum_reverse]
    ring
  have htot : 0 < ((0 : ℚ) :: (seg.dropLast.map sk.plen).reverse).sum := by
    rw [htot0]
    exact seg_total_pos sk hlen hpos seg hseg
  have hnn : ∀ y ∈ ((0 : ℚ) :: (seg.dropLast.map sk.plen).reverse), 0 ≤ y := by
    intro y hy
    rcases List.mem_cons.1 hy with h1 | h1
    · rw [h1]
    · rcases List.mem_map.1 (List.mem_reverse.1 h1) with ⟨i, _, rfl⟩
      exact plen_nonneg sk (fun z hz => le_of_lt (hpos z hz)) i
  have hcb := cumsumFrom_bounds _ 0 c hc (le_refl 0) hnn
  dsimp only
  constructor
  · exact div_nonneg (by linarith [hcb.1]) (le_of_lt htot)
  · rw [div_le_one htot]
    linarith [hcb.2]

-- Every instrumentation operation leaves the node-position map unchanged.

theorem recBody_fold_posM (label : Option String) :
    ∀ (l : List Nat) (s : ModelState),
      (l.foldl (recBody label) s).node2posM = s.node2posM := by
  intro l
  induction l with
  | nil => intro s; rfl
  | cons a t ih =>
    intro s
    rw [List.foldl_cons, ih]
    cases label <;> rfl

theorem stimBody_fold_posM :
    ∀ (l : List Nat) (s : ModelState),
      (l.foldl stimBody s).node2posM = s.node2posM := by
  intro l
  induction l with
  | nil => intro s; rfl
  | cons a t ih =>
    intro s
    rw [List.foldl_cons, ih]
    rfl

theorem synBody_fold_posM (g : Nat) :
    ∀ (l : List Nat) (s : ModelState),
      (l.foldl (synBody g) s).node2posM = s.node2posM := by
  intro l
  induction l with
  | nil => intro s; rfl
  | cons a t ih =>
    intro s
    rw [List.foldl_cons, ih]
    rfl

/-- C5.  Every resolved normalized position lies in [0, 1], and no later
operation (record, stimulus, synaptic input, mechanism insertion/removal,
any clear) changes the node-position map. -/
theorem c5_position_bounds (sk : Skeleton)
    (hlen : sk.plens.length = sk.parents.length)
    (hpos : ∀ x ∈ sk.plens, (0 : ℚ) < x) :
    (∀ k q, node2pos sk k = some q → 0 ≤ q ∧ q ≤ 1)
    ∧ (∀ (st : ModelState) (wh : List Nat) (what : PyStrArg)
        (label : Option String) (mech : String) (subset : Option (List Nat)),
        (addRecord st wh what label).1.node2posM = st.node2posM
        ∧ (addStimulus st wh).1.node2posM = st.node2posM
        ∧ (addSynapticInput st wh).1.node2posM = st.node2posM
        ∧ (insertMech st mech subset).node2posM = st.node2posM
        ∧ (uninsertMech st mech subset).node2posM = st.node2posM
        ∧ (clearRecords st).node2posM = st.node2posM
        ∧ (clearStimuli st).node2posM = st.node2posM
        ∧ (clearSynapses st).node2posM = st.node2posM
        ∧ (clearModel st).node2posM = st.node2posM) := by
  constructor
  · intro k q h
    rw [node2pos_eq] at h
    rcases foldUpd_val _ _ k q h with h1 | h1
    · simp at h1
    · rcases h1 with ⟨es, hes, hkq⟩
      rcases List.mem_map.1 hes with ⟨seg, hseg, rfl⟩
      exact segEntries_val_bounds sk hlen hpos seg hseg (k, q) hkq
  · intro st wh what label mech subset
    refine ⟨?_, ?_, ?_, rfl, rfl, rfl, rfl, rfl, rfl⟩
    · cases what with
      | nonStr => rfl
      | str s =>
        unfold addRecord
        by_cases hloc : locOk st wh = true
        · rw [if_pos hloc]
          exact recBody_fold_posM label wh st
        · rw [if_neg hloc]
    · unfold addStimulus
      by_cases hloc : locOk st wh = true
      · rw [if_pos hloc]
        exact stimBody_fold_posM wh st
      · rw [if_neg hloc]
    · unfold addSynapticInput
      by_cases hloc : locOk (synPre st) wh = true
      · rw [if_pos hloc]
        exact synBody_fold_posM st.nextId wh (synPre st)
      · rw [if_neg hloc]
        rfl

/-- C5 witness: node 1 of the 3-node chain resolves to position 1/2, which
the theorem bounds into [0, 1]; a stimulus call leaves the position map
unchanged. -/
theorem c5_witness :
    lineSkel.plens.length = lineSkel.parents.length
    ∧ node2pos lineSkel 1 = some (1 / 2)
    ∧ (0 ≤ (1 / 2 : ℚ) ∧ (1 / 2 : ℚ) ≤ 1)
    ∧ (addStimulus (buildModel lineSkel) [2]).1.node2posM
        = (buildModel lineSkel).node2posM := by
  have heval : node2pos lineSkel 1 = some (1 / 2) := by
    with_unfolding_all decide
  have h := c5_position_bounds lineSkel (by decide)
    (by with_unfolding_all decide)
  exact ⟨by decide, heval, h.1 1 (1 / 2) heval,
    (h.2 (buildModel lineSkel) [2] (PyStrArg.str "v") none "pas"
      none).2.1⟩

-- Lemmas locating the branch point inside its own section.

theorem getLast?_tail_of_long {α : Type} (l : List α) (h : 2 ≤ l.length) :
    l.tail.getLast? = l.getLast? := by
  cases l with
  | nil => simp at h
  | cons a t =>
    cases t with
    | nil => simp at h
    | cons b t2 =>
      show (b :: t2).getLast? = (a :: b :: t2).getLast?
      rw [List.getLast?_cons_cons]

theorem zip_getLast {α β : Type} :
    ∀ (l1 : List α) (l2 : List β), l1.length = l2.length →
      ∀ a b, l1.getLast? = some a → l2.getLast? = some b →
      (l1.zip l2).getLast? = some (a, b) := by
  intro l1
  induction l1 with
  | nil => intro l2 _ a b ha _; simp at ha
  | cons x t ih =>
    intro l2 hl a b ha hb
    cases l2 with
    | nil => simp at hl
    | cons y t2 =>
      cases t with
      | nil =>
        have ht2 : t2.length = 0 := by simpa using hl.symm
        rw [List.length_eq_zero] at ht2
        subst ht2
        simp at ha hb
        subst ha
        subst hb
        rfl
      | cons c t3 =>
        have ht2ne : t2 ≠ [] := by
          intro hh
          rw [hh] at hl
          simp at hl
        rw [List.getLast?_cons_cons] at ha
        rw [getLast?_cons_of_ne y ht2ne] at hb
        have hzne : (c :: t3).zip t2 ≠ [] := by
          cases t2 with
          | nil => exact absurd rfl ht2ne
          | cons d t4 => simp
        show ((x, y) :: (c :: t3).zip t2).getLast? = some (a, b)
        rw [getLast?_cons_of_ne (x, y) hzne]
        exact ih t2 (by simpa using hl) a b ha hb

theorem length_segFrom_ge_two (sk : Skeleton) (p : Nat)
    (hs : isStart sk p) : 2 ≤ (segFrom sk p).length := by
  obtain ⟨rest, hrest, hrne⟩ := segFrom_shape_of_isStart sk p hs
  rw [hrest]
  have := List.length_pos.2 hrne
  simp
  omega

theorem segKept_getLast (sk : Skeleton) (p : Nat) (hs : isStart sk p) :
    (segKept sk (segFrom sk p)).getLast? = some p := by
  have hrev : (segFrom sk p).reverse.getLast? = some p := by
    rw [List.getLast?_reverse]
    exact segFromF_head sk p p
  unfold segKept
  split
  · rw [getLast?_tail_of_long _ (by
      rw [List.length_reverse]
      exact length_segFrom_ge_two sk p hs)]
    exact hrev
  · exact hrev

theorem segNorm_getLast (sk : Skeleton)
    (hlen : sk.plens.length = sk.parents.length)
    (hpos : ∀ x ∈ sk.plens, (0 : ℚ) < x) (p : Nat) (hs : isStart sk p)
    (hseg : segFrom sk p ∈ smallSegments sk) :
    (segNorm sk (segFrom sk p)).getLast? = some 1 := by
  have htotpos : 0 < ((segFrom sk p).dropLast.map sk.plen).sum :=
    seg_total_pos sk hlen hpos _ hseg
  have hdist0 : ((0 : ℚ) :: ((segFrom sk p).dropLast.map sk.plen).reverse)
      ≠ [] := by simp
  have hall : (segNormAll sk (segFrom sk p)).getLast? = some 1 := by
    unfold segNormAll
    rw [List.getLast?_map]
    show ((cumsumFrom 0 _).getLast?).map _ = _
    rw [cumsumFrom_getLast? 0 _ hdist0]
    simp only [Option.map_some']
    congr 1
    rw [List.sum_cons, List.sum_reverse]
    rw [zero_add, zero_add]
    exact div_self (ne_of_gt htotpos)
  unfold segNorm
  split
  · rw [getLast?_tail_of_long _ (by
      rw [length_segNormAll sk _ (segFrom_ne_nil sk p)]
      exact length_segFrom_ge_two sk p hs)]
    exact hall
  · exact hall

theorem mem_segKept_own (sk : Skeleton) (p : Nat) (hs : isStart sk p) :
    p ∈ segKept sk (segFrom sk p) := by
  refine mem_segKept_of sk _ p
    (List.mem_of_mem_head? (segFromF_head sk p p)) ?_
  intro q hq
  exact Or.inl (fun hpq =>
    (segFrom_getLast_ne_head sk p hs q hq) (hpq ▸ rfl))

theorem not_mem_segKept_getLast (sk : Skeleton) (seg : List Nat)
    (hnd : seg.Nodup) (p : Nat) (hp : seg.getLast? = some p)
    (hroot : p ∉ sk.rootsOf) : p ∉ segKept sk seg := by
  unfold segKept segDrop
  rw [hp]
  simp only [hroot, decide_False, Bool.not_false, if_true]
  have hrev : seg.reverse.head? = some p := by
    rw [List.head?_reverse, hp]
  cases hr : seg.reverse with
  | nil => simp
  | cons a rest =>
    rw [hr] at hrev
    simp at hrev
    show p ∉ rest
    have hndr : (a :: rest).Nodup := by
      rw [← hr]
      exact List.nodup_reverse.2 hnd
    intro hmem2
    exact (List.nodup_cons.1 hndr).1 (by rw [hrev]; exact hmem2)

/-- A non-root stop node is kept only by its own segment. -/
theorem kept_only_own (sk : Skeleton) (p : Nat) (hps : isStart sk p)
    (hroot : p ∉ sk.rootsOf) (d : Nat) (hds : isStart sk d)
    (hmem : p ∈ segKept sk (segFrom sk d)) : d = p := by
  have hpseg : p ∈ segFrom sk d := segKept_subset sk _ p hmem
  by_cases hpd : p = d
  · exact hpd.symm
  obtain ⟨q, hq⟩ : ∃ q, (segFrom sk d).getLast? = some q := by
    cases hgl : (segFrom sk d).getLast? with
    | none =>
      exact absurd (List.getLast?_eq_none_iff.1 hgl) (segFrom_ne_nil sk d)
    | some q2 => exact ⟨q2, rfl⟩
  by_cases hpq : p = q
  · subst hpq
    exact absurd hmem
      (not_mem_segKept_getLast sk _ (segFrom_nodup sk d) p hq hroot)
  · have hinterior := segFromF_interior sk d d p (Nat.le_refl d) hpseg hpd
      (by
        show (segFrom sk d).getLast? ≠ some p
        rw [hq]
        intro hh
        exact hpq (by injection hh; omega))
    exact absurd hinterior hps.1

/-- The values the two node maps give to a non-root branch/stop node: its
own section index and normalized position 1. -/
theorem node2maps_at_branch (sk : Skeleton)
    (hlen : sk.plens.length = sk.parents.length)
    (hpos : ∀ x ∈ sk.plens, (0 : ℚ) < x) (p : Nat) (hps : isStart sk p)
    (hroot : p ∉ sk.rootsOf) (hpn : p < sk.n) :
    node2pos sk p = some 1
    ∧ ∃ s, node2sec sk p = some s
      ∧ (smallSegments sk).get? s = some (segFrom sk p) := by
  have hpstart : p ∈ (List.range sk.n).filter
      (fun d => decide (isStart sk d)) :=
    List.mem_filter.2 ⟨List.mem_range.2 hpn, decide_eq_true hps⟩
  obtain ⟨s1, s2, hsplit⟩ := List.append_of_mem hpstart
  have hndstarts : ((List.range sk.n).filter
      (fun d => decide (isStart sk d))).Nodup :=
    List.Nodup.filter _ (List.nodup_range sk.n)
  rw [hsplit] at hndstarts
  rw [List.nodup_append] at hndstarts
  have hps1 : p ∉ s1 := fun hh => hndstarts.2.2 hh (by simp)
  have hps2 : p ∉ s2 := (List.nodup_cons.1 hndstarts.2.1).1
  have hstarts_mem : ∀ d ∈ s2, isStart sk d := by
    intro d hd
    have : d ∈ (List.range sk.n).filter (fun d => decide (isStart sk d)) := by
      rw [hsplit]
      exact List.mem_append.2 (Or.inr (by simp [hd]))
    exact of_decide_eq_true (List.mem_filter.1 this).2
  have hsegsplit : smallSegments sk
      = s1.map (segFrom sk) ++ segFrom sk p :: s2.map (segFrom sk) := by
    unfold smallSegments
    rw [hsplit, List.map_append, List.map_cons]
  have hsegp_mem : segFrom sk p ∈ smallSegments sk :=
    segFrom_mem_smallSegments sk p hpn hps
  have hkeptnd : (segKept sk (segFrom sk p)).Nodup :=
    segKept_nodup sk _ (segFrom_nodup sk p)
  have hown : p ∈ segKept sk (segFrom sk p) := mem_segKept_own sk p hps
  have hnot2 : ∀ d ∈ s2, p ∉ segKept sk (segFrom sk d) := by
    intro d hd hmem
    have := kept_only_own sk p hps hroot d (hstarts_mem d hd) hmem
    subst this
    exact hps2 hd
  constructor
  · -- node2pos p = 1
    have hmem1 : (p, (1 : ℚ)) ∈ segEntries sk (segFrom sk p) := by
      refine List.mem_of_getLast?_eq_some
        (zip_getLast _ _ (length_segNorm_eq sk _ (segFrom_ne_nil sk p)) p 1
          (segKept_getLast sk p hps)
          (segNorm_getLast sk hlen hpos p hps hsegp_mem))
    rw [node2pos_eq, hsegsplit, List.map_append, List.map_cons]
    refine foldUpd_last _ _ _ _ p 1 hmem1 ?_ ?_
    · rw [segEntries_keys sk _ (segFrom_ne_nil sk p)]
      exact hkeptnd
    · intro es hes
      rcases List.mem_map.1 hes with ⟨seg2, hseg2, rfl⟩
      rcases List.mem_map.1 hseg2 with ⟨d, hd, rfl⟩
      rw [segEntries_keys sk _ (segFrom_ne_nil sk d)]
      exact hnot2 d hd
  · -- node2sec p = index of p's own segment
    refine ⟨(s1.map (segFrom sk)).length, ?_, ?_⟩
    · rw [node2sec_eq, hsegsplit, withIdx_append, Nat.zero_add,
        withIdx_cons, List.map_append, List.map_cons]
      refine foldUpd_last _ _ _ _ p ((s1.map (segFrom sk)).length) ?_ ?_ ?_
      · exact List.mem_map.2 ⟨p, hown, rfl⟩
      · rw [keys_pairs]
        exact hkeptnd
      · intro es hes
        rcases List.mem_map.1 hes with ⟨iseg, hiseg, rfl⟩
        obtain ⟨i2, seg2⟩ := iseg
        rw [keys_pairs]
        rcases (withIdx_mem_iff _ _ i2 seg2).1 hiseg with ⟨j, hj, _⟩
        have hseg2mem : seg2 ∈ s2.map (segFrom sk) :=
          List.mem_iff_get?.2 ⟨j, hj⟩
        rcases List.mem_map.1 hseg2mem with ⟨d, hd, rfl⟩
        exact hnot2 d hd
    · rw [hsegsplit, List.get?_append_right (Nat.le_refl _)]
      simp

/-- C2.  Every Section whose Segment's proximal node is not a root is
connected, at its 0 end, to the Section that maps that proximal (branch)
node, at NEURON's default parent position 1 — which coincides with the
branch node's resolved normalized position, always exactly 1.  Root
Sections are left unconnected.  In particular, for the Y-shaped skeleton
the two leaf Sections connect to the branch Section at position 1. -/
theorem c2_connection_topology (sk : Skeleton)
    (hlen : sk.plens.length = sk.parents.length)
    (hpos : ∀ x ∈ sk.plens, (0 : ℚ) < x) :
    (∀ i seg, (smallSegments sk).get? i = some seg →
      ∀ p, seg.getLast? = some p →
        (p ∉ sk.rootsOf →
          node2pos sk p = some 1
          ∧ ∃ s, node2sec sk p = some s
            ∧ (smallSegments sk).get? s = some (segFrom sk p)
            ∧ p ∈ segKept sk (segFrom sk p)
            ∧ { child := i, parentSec := s, parentPos := 1, childPos := 0 }
                ∈ connectionsOf sk)
        ∧ (p ∈ sk.rootsOf → ∀ c ∈ connectionsOf sk, c.child ≠ i))
    ∧ (smallSegments ySkel).length = 3
    ∧ connectionsOf ySkel =
        [{ child := 1, parentSec := 0, parentPos := 1, childPos := 0 },
         { child := 2, parentSec := 0, parentPos := 1, childPos := 0 }]
    ∧ node2pos ySkel 1 = some 1 := by
  refine ⟨?_, by decide, by with_unfolding_all decide,
    by with_unfolding_all decide⟩
  intro i seg hi p hp
  have hseg : seg ∈ smallSegments sk := List.mem_iff_get?.2 ⟨i, hi⟩
  constructor
  · intro hroot
    obtain ⟨d0, hd0n, hd0s, hseg_eq⟩ := smallSegments_shape sk seg hseg
    have hpmem : p ∈ seg := List.mem_of_getLast?_eq_some hp
    have hpn : p < sk.n := by
      rw [hseg_eq] at hpmem
      exact segFrom_mem_lt sk d0 hd0n p hpmem
    have hparent : (sk.parent p).isSome := by
      cases hpp : sk.parent p with
      | none =>
        exact absurd (List.mem_filter.2 ⟨List.mem_range.2 hpn,
          by rw [hpp]; rfl⟩) hroot
      | some q => rfl
    have hccp : sk.childCount p ≠ 1 := by
      have hp2 : (segFrom sk d0).getLast? = some p := by
        rw [← hseg_eq]
        exact hp
      rcases segFromF_getLast sk d0 d0 (Nat.le_refl d0) p hp2 with h1 | h1
      · rw [h1] at hparent
        simp at hparent
      · exact h1
    have hps : isStart sk p := ⟨hccp, hparent⟩
    obtain ⟨hpos1, s, hsec, hgets⟩ :=
      node2maps_at_branch sk hlen hpos p hps hroot hpn
    refine ⟨hpos1, s, hsec, hgets, mem_segKept_own sk p hps, ?_⟩
    unfold connectionsOf
    refine List.mem_filterMap.2 ⟨(i, seg),
      (withIdx_mem_iff _ 0 i seg).2 ⟨i, hi, (Nat.zero_add i).symm⟩, ?_⟩
    dsimp only
    rw [hp]
    dsimp only
    rw [if_neg hroot, hsec]
    rfl
  · intro hroot c hc hci
    unfold connectionsOf at hc
    rcases List.mem_filterMap.1 hc with ⟨iseg, hmem2, hF⟩
    obtain ⟨i2, seg2⟩ := iseg
    dsimp only at hF
    cases hgl : seg2.getLast? with
    | none =>
      rw [hgl] at hF
      simp at hF
    | some p2 =>
      rw [hgl] at hF
      dsimp only at hF
      by_cases hr2 : p2 ∈ sk.rootsOf
      · rw [if_pos hr2] at hF
        simp at hF
      · rw [if_neg hr2] at hF
        rcases Option.map_eq_some'.1 hF with ⟨s2, _, hceq⟩
        have hchild : c.child = i2 := by
          rw [← hceq]
        have hii : i2 = i := by
          rw [← hchild]
          exact hci
        rcases (withIdx_mem_iff _ 0 i2 seg2).1 hmem2 with ⟨j, hj, hj2⟩
        have hjc : j = i2 := by omega
        subst hjc
        rw [hii, hi] at hj
        have hseq : seg = seg2 := by injection hj
        subst hseq
        rw [hp] at hgl
        have hpp2 : p = p2 := by injection hgl
        subst hpp2
        exact hr2 hroot

/-- C2 witness: on the Y-skeleton, segment 1 (leaf 2 up to branch node 1)
has non-root proximal node 1; its section connects to section 0 at
position 1, the branch node's resolved position. -/
theorem c2_witness :
    ySkel.plens.length = ySkel.parents.length
    ∧ (smallSegments ySkel).get? 1 = some [2, 1]
    ∧ [2, 1].getLast? = some 1
    ∧ 1 ∉ ySkel.rootsOf
    ∧ node2pos ySkel 1 = some 1
    ∧ { child := 1, parentSec := 0, parentPos := 1, childPos := 0 }
        ∈ connectionsOf ySkel := by
  have h := c2_connection_topology ySkel (by decide)
    (by with_unfolding_all decide)
  have h1 := (h.1 1 [2, 1] (by decide) 1 (by decide)).1 (by decide)
  obtain ⟨hpos1, s, hsec, hget, hkept, hconn⟩ := h1
  have hs0 : node2sec ySkel 1 = some 0 := by with_unfolding_all decide
  rw [hsec] at hs0
  have hseq : s = 0 := by injection hs0
  subst hseq
  exact ⟨by decide, by decide, by decide, by decide, hpos1, hconn⟩
